import Mathlib

/-!
Shallow embedding of the declaration-extraction and type-resolution pipeline
of the objcjs-types generator (src/generator/*.ts), together with proofs of
the specification claims about it.

Sources embedded here:
- src/generator/type-mapper.ts  (mapType / mapTypeInner / parseBlockType and
  their helper string functions and lookup tables)
- src/generator/index.ts        (known-name set narrowing, conformance
  closure builder `protocolConformers` / `getTransitiveParentProtocols`)
- src/generator/parse-worker.ts (parse-all fallback merge)
- src/generator/ast-parser.ts   (parseIntegerEnums value inference,
  processInterfaceOrCategory class/category merging)
- src/generator/templates/data.ts (WorkerPool dispatch / dispatchNext)

JavaScript strings are modelled as Lean `String` / `List Char`; the concrete
regular expressions of the source are implemented as explicit character-list
scanners with the same matching semantics (ASCII whitespace; the source's
inputs are single-line ASCII clang qualType strings).  JavaScript `Map` and
`Set` are modelled as association lists / lists in insertion order with
uniqueness maintained by the operations that build them.
-/

namespace ObjcGen

/-- Word character in the sense of the JavaScript regex class `\w`. -/
def isWordChar (c : Char) : Bool := c.isAlphanum || c = '_'

/-- Whitespace in the sense of the JavaScript regex class `\s` (ASCII part). -/
def isWsChar (c : Char) : Bool := c = ' ' || c = '\t' || c = '\n' || c = '\r'

/-- Prefix test on character lists (the anchor step of substring search). -/
def isPreL : List Char → List Char → Bool
  | [], _ => true
  | _ :: _, [] => false
  | p :: ps, c :: cs => if p = c then isPreL ps cs else false

/-- Substring occurrence test: JavaScript `String.prototype.includes`. -/
def hasSubL (pat : List Char) : List Char → Bool
  | [] => isPreL pat []
  | c :: cs => isPreL pat (c :: cs) || hasSubL pat cs

/-- JavaScript `s.includes(pat)`. -/
def hasSubstr (s pat : String) : Bool := hasSubL pat.data s.data

/-- JavaScript `s.startsWith(p)`. -/
def startsWithStr (s p : String) : Bool := isPreL p.data s.data

/-- Core of global literal replacement: replaces each non-overlapping,
left-to-right occurrence of `p :: ps` by `repl`, continuing after the match
(the behaviour of `String.prototype.replace` with a global literal regex).
The first `Nat` is a skip counter used to structurally step over the
remainder of a match that has just been emitted. -/
def replAllCore (p : Char) (ps repl : List Char) : Nat → List Char → List Char
  | _, [] => []
  | Nat.succ k, _ :: cs => replAllCore p ps repl k cs
  | 0, c :: cs =>
    if isPreL (p :: ps) (c :: cs) then repl ++ replAllCore p ps repl ps.length cs
    else c :: replAllCore p ps repl 0 cs

/-- JavaScript `s.replace(/pat/g, repl)` for a literal pattern. -/
def replaceAllStr (s pat repl : String) : String :=
  match pat.data with
  | [] => s
  | p :: ps => ⟨replAllCore p ps repl.data 0 s.data⟩

/-- Core of word-boundary-delimited deletion (`s.replace(/\bpat\b/g, "")`)
for a pattern whose first and last characters are word characters, which
holds for every such pattern in `cleanQualType` (`__kindof`, `__strong`, ...).
`pw` records whether the previous character was a word character. -/
def replWordCore (p : Char) (ps : List Char) (pw : Bool) : Nat → List Char → List Char
  | _, [] => []
  | Nat.succ k, _ :: cs => replWordCore p ps true k cs
  | 0, c :: cs =>
    let rest := cs.drop ps.length
    if isPreL (p :: ps) (c :: cs) && !pw &&
        (match rest.head? with | none => true | some nc => !isWordChar nc) then
      replWordCore p ps true ps.length cs
    else c :: replWordCore p ps (isWordChar c) 0 cs

/-- JavaScript `s.replace(/\bpat\b/g, "")` for the literal word patterns of
`cleanQualType`. -/
def wordReplStr (s pat : String) : String :=
  match pat.data with
  | [] => s
  | p :: ps => ⟨replWordCore p ps false 0 s.data⟩

/-- Uppercase ASCII letter. -/
def isUpper (c : Char) : Bool := 'A' ≤ c && c ≤ 'Z'

/-- Character class `[A-Z_]` of the attribute-macro regex. -/
def isUpUnd (c : Char) : Bool := isUpper c || c = '_'

/-- Character class `[A-Z0-9_]` of the legacy availability-macro regex. -/
def isUpDigUnd (c : Char) : Bool := isUpper c || c.isDigit || c = '_'

/-- Deletion of attribute macros: `s.replace(/\b(?:NS|API|CF|XPC)_[A-Z_]+\b/g, "")`.
`pw` records whether the previous character was a word character.  A match
needs a word boundary before the prefix, one of the four alternatives
followed by `_`, a non-empty `[A-Z_]+` run, and a word boundary after it
(the greedy run cannot backtrack successfully, as argued in type-mapper.ts's
regex semantics: every shorter run is followed by a word character). -/
def replAttrMacros (pw : Bool) : Nat → List Char → List Char
  | _, [] => []
  | Nat.succ k, _ :: cs => replAttrMacros true k cs
  | 0, c :: cs =>
    let k : Nat :=
      if isPreL ['N', 'S', '_'] (c :: cs) then 3
      else if isPreL ['A', 'P', 'I', '_'] (c :: cs) then 4
      else if isPreL ['C', 'F', '_'] (c :: cs) then 3
      else if isPreL ['X', 'P', 'C', '_'] (c :: cs) then 4
      else 0
    if k = 0 || pw then c :: replAttrMacros (isWordChar c) 0 cs
    else
      let rest := cs.drop (k - 1)
      let run := rest.takeWhile isUpUnd
      let rest2 := rest.drop run.length
      if !run.isEmpty &&
          (match rest2.head? with | none => true | some nc => !isWordChar nc) then
        replAttrMacros true (k - 1 + run.length) cs
      else c :: replAttrMacros (isWordChar c) 0 cs

/-- The literal part of the legacy availability-macro regex. -/
def availMacPat : List Char := "AVAILABLE_MAC_OS_X_VERSION_".data

/-- Deletion of legacy availability macros:
`s.replace(/\bAVAILABLE_MAC_OS_X_VERSION_[A-Z0-9_]+\b/g, "")`. -/
def replAvailMac (pw : Bool) : Nat → List Char → List Char
  | _, [] => []
  | Nat.succ k, _ :: cs => replAvailMac true k cs
  | 0, c :: cs =>
    if isPreL availMacPat (c :: cs) && !pw then
      let rest := cs.drop (availMacPat.length - 1)
      let run := rest.takeWhile isUpDigUnd
      let rest2 := rest.drop run.length
      if !run.isEmpty &&
          (match rest2.head? with | none => true | some nc => !isWordChar nc) then
        replAvailMac true (availMacPat.length - 1 + run.length) cs
      else c :: replAvailMac (isWordChar c) 0 cs
    else c :: replAvailMac (isWordChar c) 0 cs

/-- Trim on character lists (JavaScript `String.prototype.trim`, ASCII part). -/
def trimL (cs : List Char) : List Char :=
  ((cs.dropWhile isWsChar).reverse.dropWhile isWsChar).reverse

/-- JavaScript `s.trim()`. -/
def trimStr (s : String) : String := ⟨trimL s.data⟩

/-- Deletion of a leading `struct ` keyword: `s.replace(/^struct\s+/, "")`. -/
def stripStructKw (s : String) : String :=
  match s.data with
  | 's' :: 't' :: 'r' :: 'u' :: 'c' :: 't' :: c :: rest =>
    if isWsChar c then ⟨(c :: rest).dropWhile isWsChar⟩ else s
  | _ => s

/-- Association-list lookup modelling `Map.prototype.get` /
`Record` indexing keyed by strings. -/
def lookupTbl {α : Type} : List (String × α) → String → Option α
  | [], _ => none
  | (k, v) :: rest, s => if k = s then some v else lookupTbl rest s

/-- List membership modelling `Set.prototype.has`. -/
def memTbl : List String → String → Bool
  | [], _ => false
  | k :: rest, s => if k = s then true else memTbl rest s

/-- Numeric ObjC types that map to `number` (type-mapper.ts NUMERIC_TYPES). -/
def NUMERIC_TYPES : List String :=
  ["int", "unsigned int", "short", "unsigned short", "long", "unsigned long",
   "long long", "unsigned long long", "float", "double", "NSInteger",
   "NSUInteger", "CGFloat", "NSTimeInterval", "unichar", "size_t", "ssize_t",
   "uint8_t", "uint16_t", "uint32_t", "uint64_t", "int8_t", "int16_t",
   "int32_t", "int64_t", "CFIndex", "CFTimeInterval", "CGWindowLevel",
   "NSWindowLevel", "NSModalResponse", "NSComparisonResult", "NSStringEncoding"]

/-- ObjC types that map to specific TS types (type-mapper.ts DIRECT_MAPPINGS). -/
def DIRECT_MAPPINGS : List (String × String) :=
  [("void", "void"), ("BOOL", "boolean"), ("bool", "boolean"),
   ("_Bool", "boolean"), ("id", "NobjcObject"), ("SEL", "string"),
   ("Class", "NobjcObject"), ("char *", "string"), ("const char *", "string"),
   ("unsigned char *", "string"), ("const unsigned char *", "string"),
   ("NSAttributedStringKey", "_NSString"), ("NSStringTransform", "_NSString"),
   ("NSNotificationName", "_NSString"), ("NSRunLoopMode", "_NSString"),
   ("NSPasteboardType", "_NSString"), ("NSTouchBarItemIdentifier", "_NSString"),
   ("NSToolbarIdentifier", "_NSString"), ("NSToolbarItemIdentifier", "_NSString"),
   ("NSAccessibilityRole", "_NSString"), ("NSAccessibilitySubrole", "_NSString"),
   ("NSAccessibilityNotificationName", "_NSString"),
   ("NSUserInterfaceItemIdentifier", "_NSString"),
   ("NSStoryboardName", "_NSString"), ("NSStoryboardSceneIdentifier", "_NSString"),
   ("NSNibName", "_NSString"), ("NSBindingName", "_NSString"),
   ("NSColorName", "_NSString"), ("NSColorListName", "_NSString"),
   ("NSImageName", "_NSString"), ("NSSoundName", "_NSString"),
   ("NSAppearanceName", "_NSString"), ("NSPasteboardReadingOptionKey", "_NSString"),
   ("NSRectArray", "NobjcObject"), ("NSRectPointer", "NobjcObject"),
   ("NSPointArray", "NobjcObject"), ("NSPointPointer", "NobjcObject"),
   ("NSSizeArray", "NobjcObject"), ("NSSizePointer", "NobjcObject"),
   ("NSRangePointer", "NobjcObject")]

/-- ObjC generic type parameters erased to NobjcObject (GENERIC_TYPE_PARAMS). -/
def GENERIC_TYPE_PARAMS : List String :=
  ["ObjectType", "KeyType", "ValueType", "ElementType", "ResultType", "ContentType"]

/-- C/ObjC type keywords that are not block parameter names (C_TYPE_WORDS). -/
def C_TYPE_WORDS : List String :=
  ["int", "long", "short", "char", "float", "double", "unsigned", "signed",
   "void", "id", "bool", "BOOL", "const", "volatile", "restrict", "extern",
   "static", "inline", "struct", "union", "enum"]

/-- TS/JS reserved words disallowed as parameter names (BLOCK_PARAM_RESERVED). -/
def BLOCK_PARAM_RESERVED : List String :=
  ["break", "case", "catch", "continue", "debugger", "default", "delete",
   "do", "else", "finally", "for", "function", "if", "in", "instanceof",
   "new", "return", "switch", "this", "throw", "try", "typeof", "var",
   "void", "while", "with", "class", "const", "enum", "export", "extends",
   "import", "super", "implements", "interface", "let", "package", "private",
   "protected", "public", "static", "yield", "arguments", "eval"]

/-- The shared lookup tables of type-mapper.ts, installed by the
`setKnownClasses` / `setKnownProtocols` / `setProtocolConformers` /
`setKnownIntegerEnums` / `setKnownStringEnums` / `setKnownTypedefs` /
`setKnownStructs` entry points.  Sets are insertion-order lists without
duplicates; maps are association lists. -/
structure TMState where
  knownClasses : List String
  knownProtocols : List String
  protocolConformers : List (String × List String)
  knownIntegerEnums : List String
  knownStringEnums : List String
  knownTypedefs : List (String × String)
  structTypeMap : List (String × String)
deriving DecidableEq

/-- The all-empty table state (the module-level initial values). -/
def TMState.empty : TMState := ⟨[], [], [], [], [], [], []⟩

/-- type-mapper.ts `cleanQualType`: strips nullability and ownership
qualifiers, attribute macros, availability macros and a leading `struct`
keyword, then trims. -/
def cleanQualType (q : String) : String :=
  let s1 := replaceAllStr q "_Nonnull" ""
  let s2 := replaceAllStr s1 "_Nullable" ""
  let s3 := replaceAllStr s2 "_Null_unspecified" ""
  let s4 := wordReplStr s3 "__kindof"
  let s5 := wordReplStr s4 "__unsafe_unretained"
  let s6 := wordReplStr s5 "__strong"
  let s7 := wordReplStr s6 "__weak"
  let s8 := wordReplStr s7 "__autoreleasing"
  let s9 : String := ⟨replAttrMacros false 0 s8.data⟩
  let s10 : String := ⟨replAvailMac false 0 s9.data⟩
  trimStr (stripStructKw s10)

/-- type-mapper.ts `isNullableType`. -/
def isNullableType (q : String) : Bool :=
  hasSubstr q "_Nullable" || hasSubstr q "nullable" || startsWithStr q "nullable "

/-- Characters after the last `>` of a list, or `none` when it has no `>`
(the remainder left for `\s*\*$` after the greedy `<.*>` group). -/
def afterLastGt (cs : List Char) : Option (List Char) :=
  if '>' ∈ cs then some ((cs.reverse.takeWhile (fun c => c ≠ '>')).reverse)
  else none

/-- Test for `\s*\*$`: optional whitespace then a final star. -/
def isStarEnd (cs : List Char) : Bool := decide (cs.dropWhile isWsChar = ['*'])

/-- Core of type-mapper.ts `extractClassName` without the optional `const`
prefix: the regex `^(\w+)\s*(?:<.*>)?\s*\*$`.  A `<.*>` group, when the
input continues with `<`, must end at the last `>` (a viable earlier `>`
would have to be followed by `\s*\*$`, leaving no later `>`), and `.` does
not match a newline. -/
def ecnCore (cs : List Char) : Option String :=
  let name := cs.takeWhile isWordChar
  if name.isEmpty then none
  else
    let rest := (cs.drop name.length).dropWhile isWsChar
    match rest with
    | '<' :: _ =>
      match afterLastGt rest with
      | some t =>
        if '\n' ∈ rest.take (rest.length - t.length) then none
        else if isStarEnd t then some ⟨name⟩ else none
      | none => none
    | _ => if isStarEnd rest then some ⟨name⟩ else none

/-- type-mapper.ts `extractClassName`: the regex
`^(?:const\s+)?(\w+)\s*(?:<.*>)?\s*\*$` (greedy optional `const` group with
backtracking when consuming it leads to failure). -/
def extractClassName (s : String) : Option String :=
  match s.data with
  | 'c' :: 'o' :: 'n' :: 's' :: 't' :: c :: rest =>
    if isWsChar c then
      match ecnCore ((c :: rest).dropWhile isWsChar) with
      | some n => some n
      | none => ecnCore s.data
    else ecnCore s.data
  | _ => ecnCore s.data

/-- One anchored attempt of the pointer-to-pointer search regex
`\w+\s*\*\s*\*` at the head of the list. -/
def ptrPtrAt (cs : List Char) : Bool :=
  let w := cs.takeWhile isWordChar
  if w.isEmpty then false
  else
    match (cs.drop w.length).dropWhile isWsChar with
    | '*' :: r2 =>
      match r2.dropWhile isWsChar with
      | '*' :: _ => true
      | _ => false
    | _ => false

/-- type-mapper.ts `cleaned.match(/\w+\s*\*\s*\*/)` as a Boolean search
(the regex is unanchored, so every start position is tried). -/
def matchPtrPtr : List Char → Bool
  | [] => false
  | c :: cs => ptrPtrAt (c :: cs) || matchPtrPtr cs

/-- The capture of `cleaned.match(/^id<(.+)>$/)`: everything between `id<`
and a final `>`, non-empty and without a newline (`.` excludes newlines). -/
def protoCapture (s : String) : Option String :=
  match s.data with
  | 'i' :: 'd' :: '<' :: rest =>
    match rest.getLast? with
    | some '>' =>
      let mid := rest.dropLast
      if mid.isEmpty then none
      else if '\n' ∈ mid then none
      else some ⟨mid⟩
    | _ => none
  | _ => none

/-- JavaScript `str.split(/,\s*/)` on character lists: each separator is a
comma together with the following whitespace run.  The Boolean records
whether the scan is inside the whitespace run following a comma. -/
def scwGo : Bool → List Char → List (List Char)
  | _, [] => [[]]
  | skipWs, c :: rest =>
    if skipWs && isWsChar c then scwGo true rest
    else if c = ',' then [] :: scwGo true rest
    else
      match scwGo false rest with
      | [] => [[c]]
      | piece :: more => (c :: piece) :: more

/-- JavaScript `str.split(/,\s*/)` on character lists. -/
def splitCommaWs (cs : List Char) : List (List Char) := scwGo false cs

/-- Code-unit lexicographic strict order on character lists (the comparison
JavaScript's default sort comparator applies to strings). -/
def strLtb : List Char → List Char → Bool
  | [], [] => false
  | [], _ :: _ => true
  | _ :: _, [] => false
  | a :: as, b :: bs =>
    if a.toNat < b.toNat then true
    else if b.toNat < a.toNat then false
    else strLtb as bs

/-- `a ≤ b` in code-unit lexicographic order. -/
def strLeb (a b : String) : Bool := !(strLtb b.data a.data)

/-- Sorted-insertion step for the model of `Array.prototype.sort()`
(default comparator: code-unit lexicographic order). -/
def insOne (x : String) : List String → List String
  | [] => [x]
  | y :: ys => if strLeb x y then x :: y :: ys else y :: insOne x ys

/-- Model of `[...set].sort()`: insertion sort in lexicographic order. -/
def sortStrs (l : List String) : List String := l.foldr insOne []

/-- Model of `[...new Set(list)]`: deduplication keeping first occurrences
in order. -/
def dedupFirst (seen : List String) : List String → List String
  | [] => []
  | x :: xs => if memTbl seen x then dedupFirst seen xs else x :: dedupFirst (x :: seen) xs

/-- Splits a block qualType at the first occurrence of the `(^` separator:
returns the characters before it and the characters after the `^`
(the `indexOf("(^")` step of `parseBlockType`; `none` when absent). -/
def splitAtCaret : List Char → Option (List Char × List Char)
  | [] => none
  | '(' :: rest =>
    match rest with
    | '^' :: rest2 => some ([], rest2)
    | _ => (splitAtCaret rest).map (fun p => ('(' :: p.1, p.2))
  | c :: cs => (splitAtCaret cs).map (fun p => (c :: p.1, p.2))

/-- The `while (i < cleaned.length && depth > 0)` scan of `parseBlockType`
that skips past the closing parenthesis of the `(^...)` group: consumes
characters maintaining the nesting depth, returning the remainder after the
matching close (or after the end of input). -/
def skipToClose : Nat → List Char → List Char
  | _, [] => []
  | 0, cs => cs
  | Nat.succ d, c :: cs =>
    if c = '(' then skipToClose (d + 2) cs
    else if c = ')' then skipToClose d cs
    else skipToClose (d + 1) cs

/-- Characters consumed by the parameter-list scan of `parseBlockType` up to
and including the parenthesis that closes depth 1, or the whole remainder
when the input ends first.  `paramStr` is this list without its last element
(the source slices to `i - 1`, which in both exit cases excludes the final
consumed character). -/
def consumeBal (depth : Nat) : List Char → List Char
  | [] => []
  | c :: cs =>
    let d := if c = '(' then depth + 1 else if c = ')' then depth - 1 else depth
    if d = 0 then [c] else c :: consumeBal d cs

/-- Identifier test `^[a-zA-Z_]\w*$` used on block parameter names. -/
def isIdentL (cs : List Char) : Bool :=
  match cs with
  | [] => false
  | c :: rest => (c.isAlpha || c = '_') && rest.all isWordChar

/-- Splits a character list at its last `*`: the part up to and including
the star, and the part after it.  `none` when there is no `*`
(`trimmed.lastIndexOf("*")` in `extractBlockParamName`). -/
def lastStarSplit (cs : List Char) : Option (List Char × List Char) :=
  if '*' ∈ cs then
    let after := (cs.reverse.takeWhile (fun c => c ≠ '*')).reverse
    some (cs.take (cs.length - after.length), after)
  else none

/-- The non-pointer arm of `extractBlockParamName`: the regex
`^(.+?)\s+([a-zA-Z_]\w*)$`.  The lazy prefix makes the `\s+` the maximal
whitespace run before the trailing maximal word-character run, which must be
identifier-shaped; the prefix before the run must be non-empty. -/
def trailIdentSplit (t : List Char) : Option (List Char × List Char) :=
  let rev := t.reverse
  let w := rev.takeWhile isWordChar
  let rest := rev.drop w.length
  let ws := rest.takeWhile isWsChar
  let pre := rest.drop ws.length
  if !w.isEmpty && isIdentL w.reverse && !ws.isEmpty && !pre.isEmpty then
    some (pre.reverse, w.reverse)
  else none

/-- type-mapper.ts `extractBlockParamName`: splits a block parameter string
into its type part and an optional embedded parameter name. -/
def extractBlockParamName (paramStr : String) : String × Option String :=
  let t := trimL paramStr.data
  if hasSubL "(^".data t then (⟨t⟩, none)
  else
    match lastStarSplit t with
    | some (before, after) =>
      let a := trimL after
      if !a.isEmpty && isIdentL a && !(memTbl C_TYPE_WORDS ⟨a⟩) then
        (trimStr ⟨before⟩, some ⟨a⟩)
      else (⟨t⟩, none)
    | none =>
      match trailIdentSplit t with
      | some (ty, nm) =>
        if !(memTbl C_TYPE_WORDS ⟨nm⟩) then (⟨ty⟩, some ⟨nm⟩)
        else (⟨t⟩, none)
      | none => (⟨t⟩, none)

/-- type-mapper.ts `sanitizeBlockParamName`. -/
def sanitizeBlockParamName (name : String) : String :=
  if memTbl BLOCK_PARAM_RESERVED name then name ++ "_"
  else if name = "" || (match name.data.head? with | some c => c.isDigit | none => false) then
    "arg"
  else name

/-- The header-sourced block parameter name `blockParamNames?.[idx]`,
with JavaScript truthiness (an empty string falls through). -/
def headerParamName (blockParamNames : Option (List String)) (idx : Nat) : Option String :=
  match blockParamNames with
  | none => none
  | some l =>
    match l.get? idx with
    | none => none
    | some h => if h = "" then none else some h

/-- The splitBlockParams depth-aware comma splitter of type-mapper.ts:
splits on commas at depth 0 (depth counts `(<[` up and `)>]` down and can go
negative), pushing the current piece at each separator and the final piece
only when it is non-blank after trimming. -/
def splitBlockParamsL (depth : Int) (cur : List Char) : List Char → List (List Char)
  | [] => if (trimL cur.reverse).isEmpty then [] else [cur.reverse]
  | ch :: rest =>
    if ch = '(' || ch = '<' || ch = '[' then splitBlockParamsL (depth + 1) (ch :: cur) rest
    else if ch = ')' || ch = '>' || ch = ']' then splitBlockParamsL (depth - 1) (ch :: cur) rest
    else if ch = ',' && depth = 0 then cur.reverse :: splitBlockParamsL 0 [] rest
    else splitBlockParamsL depth (ch :: cur) rest

/-- The protocol-existential and terminal rules of `mapTypeInner` (the code
after the typedef-resolution rule, reached either directly or by falling
through the visited-set guard).  Pure in the tables. -/
def protoOrFallback (st : TMState) (cleaned : String) (isReturnType : Bool) :
    Option String × TMState :=
  match protoCapture cleaned with
  | some inner =>
    let protoNames : List String := (splitCommaWs inner.data).map (fun l => ⟨l⟩)
    let expanded : Option String :=
      if isReturnType && protoNames.length = 1 then
        match protoNames with
        | protoName :: _ =>
          match lookupTbl st.protocolConformers protoName with
          | some conformers =>
            if conformers.length > 0 && conformers.length ≤ 30 then
              some (String.intercalate " | " ((sortStrs conformers).map (fun c => "_" ++ c)))
            else none
          | none => none
        | [] => none
      else none
    match expanded with
    | some u => (some u, st)
    | none =>
      let unionParts := protoNames.foldr
        (fun protoName acc =>
          if memTbl st.knownProtocols protoName then ("_" ++ protoName) :: acc
          else if memTbl st.knownClasses protoName then ("_" ++ protoName) :: acc
          else acc) []
      if unionParts.isEmpty then (some "NobjcObject", st)
      else (some (String.intercalate " | " (dedupFirst [] unionParts)), st)
  | none =>
    if hasSubstr cleaned "[" then (some "NobjcObject", st)
    else (some "NobjcObject", st)

/-- The pending call of the type-resolution recursion: `mapTypeInner`
itself, `parseBlockType`, or the block parameter-mapping loop. -/
inductive TMCall where
  | inner (cleaned containing : String) (resolving : List String)
      (isReturnType : Bool) (blockParamNames : Option (List String))
  | blockTy (cleaned containing : String) (blockParamNames : Option (List String))
  | params (ps : List String) (containing : String)
      (blockParamNames : Option (List String)) (idx : Nat)

/-- The value a type-resolution call produces: a TypeScript type string
(for `mapTypeInner` / `parseBlockType`) or the mapped parameter list (for
the parameter loop). -/
inductive TMVal where
  | str (s : String)
  | strs (l : List String)
deriving DecidableEq

/-- type-mapper.ts `mapTypeInner` / `parseBlockType` and the latter's
parameter loop, as one fuel-indexed function over `TMCall` (the source's
mutual recursion is not terminating on all inputs — see the C7 analysis —
so every recursive call consumes one unit of fuel, and `none` means the
computation did not finish within the given fuel).  The shared tables are
threaded through explicitly: the second component of the result is the
table state after the call, mirroring that the source reads but never
writes the module-level tables.  An `inner`/`blockTy` call only ever
produces `TMVal.str` and a `params` call only `TMVal.strs`; the mixed
patterns below are unreachable and map to `none`. -/
def tmRun (st : TMState) : Nat → TMCall → Option TMVal × TMState
  | 0, _ => (none, st)
  | Nat.succ fuel, .inner cleaned containing resolving isReturnType blockParamNames =>
    (match lookupTbl DIRECT_MAPPINGS cleaned with
    | some v => (some (.str v), st)
    | none =>
    if memTbl NUMERIC_TYPES cleaned then (some (.str "number"), st)
    else if memTbl GENERIC_TYPE_PARAMS cleaned then (some (.str "NobjcObject"), st)
    else if cleaned = "instancetype" || cleaned = "instancetype _Nonnull" ||
        cleaned = "instancetype _Nullable" then (some (.str ("_" ++ containing)), st)
    else match lookupTbl st.structTypeMap cleaned with
    | some v => (some (.str v), st)
    | none =>
    if hasSubstr cleaned "(^" then
      tmRun st fuel (.blockTy cleaned containing blockParamNames)
    else if hasSubstr cleaned "Block_" then (some (.str "NobjcObject"), st)
    else if hasSubstr cleaned "(*)" || hasSubstr cleaned "(*" then
      (some (.str "NobjcObject"), st)
    else if matchPtrPtr cleaned.data then (some (.str "NobjcObject"), st)
    else if cleaned = "void *" || cleaned = "const void *" then
      (some (.str "NobjcObject"), st)
    else match extractClassName cleaned with
    | some className =>
      if className = "instancetype" then (some (.str ("_" ++ containing)), st)
      else if memTbl st.knownClasses className then (some (.str ("_" ++ className)), st)
      else (some (.str "NobjcObject"), st)
    | none =>
    if memTbl st.knownIntegerEnums cleaned then (some (.str cleaned), st)
    else if memTbl st.knownStringEnums cleaned then (some (.str cleaned), st)
    else match lookupTbl st.knownTypedefs cleaned with
    | some underlying =>
      if cleaned ∈ resolving then
        (match protoOrFallback st cleaned isReturnType with
         | (o, st2) => (o.map TMVal.str, st2))
      else
        tmRun st fuel (.inner (cleanQualType underlying) containing
          (cleaned :: resolving) isReturnType none)
    | none =>
      (match protoOrFallback st cleaned isReturnType with
       | (o, st2) => (o.map TMVal.str, st2)))
  | Nat.succ fuel, .blockTy cleaned containing blockParamNames =>
    (match splitAtCaret cleaned.data with
    | none => (some (.str "NobjcObject"), st)
    | some (before, afterCaret) =>
      let returnTypeStr : String := if (trimL before).isEmpty then "void" else ⟨trimL before⟩
      let afterGroup := skipToClose 1 afterCaret
      let atParams := afterGroup.dropWhile (fun c => c = ' ')
      match atParams with
      | '(' :: inside =>
        let paramStr := trimL (consumeBal 1 inside).dropLast
        let retRes := tmRun st fuel (.inner (cleanQualType returnTypeStr) containing [] false none)
        match retRes.1 with
        | some (.str tsReturn) =>
          if paramStr = "void".data || paramStr.isEmpty then
            (some (.str ("() => " ++ tsReturn)), retRes.2)
          else
            let pieces := (splitBlockParamsL 0 [] paramStr).map (fun l => (⟨l⟩ : String))
            let prms := tmRun retRes.2 fuel (.params pieces containing blockParamNames 0)
            match prms.1 with
            | some (.strs tsParams) =>
              (some (.str ("(" ++ String.intercalate ", " tsParams ++ ") => " ++ tsReturn)),
               prms.2)
            | _ => (none, prms.2)
        | _ => (none, retRes.2)
      | _ =>
        let retRes := tmRun st fuel (.inner (cleanQualType returnTypeStr) containing [] false none)
        match retRes.1 with
        | some (.str tsReturn) => (some (.str ("() => " ++ tsReturn)), retRes.2)
        | _ => (none, retRes.2))
  | Nat.succ fuel, .params ps containing blockParamNames idx =>
    (match ps with
    | [] => (some (.strs []), st)
    | p :: rest =>
      let cl := cleanQualType (trimStr p)
      let tn := extractBlockParamName cl
      let tres := tmRun st fuel (.inner tn.1 containing [] false none)
      match tres.1 with
      | some (.str tsType) =>
        let paramName :=
          match headerParamName blockParamNames idx with
          | some h => sanitizeBlockParamName h
          | none =>
            match tn.2 with
            | some q => sanitizeBlockParamName q
            | none => "arg" ++ toString idx
        let rres := tmRun tres.2 fuel (.params rest containing blockParamNames (idx + 1))
        match rres.1 with
        | some (.strs restParams) =>
          (some (.strs ((paramName ++ ": " ++ tsType) :: restParams)), rres.2)
        | _ => (none, rres.2)
      | _ => (none, tres.2))

/-- type-mapper.ts `mapTypeInner` as a `String`-valued wrapper over
`tmRun`. -/
def mapTypeInnerM (st : TMState) (fuel : Nat) (cleaned containing : String)
    (resolving : List String) (isReturnType : Bool)
    (blockParamNames : Option (List String)) : Option String × TMState :=
  match tmRun st fuel (.inner cleaned containing resolving isReturnType blockParamNames) with
  | (some (.str s), st2) => (some s, st2)
  | (some (.strs _), st2) => (none, st2)
  | (none, st2) => (none, st2)

/-- type-mapper.ts `mapType`: nullability detection, cleanup, the inner
resolution, and optional wrapping (function types parenthesized; `void`
never wrapped). -/
def mapTypeM (st : TMState) (fuel : Nat) (qualType containing : String)
    (isReturnType : Bool) (blockParamNames : Option (List String)) :
    Option String × TMState :=
  let nullable := isNullableType qualType
  let cleaned := cleanQualType qualType
  let res := mapTypeInnerM st fuel cleaned containing [] isReturnType blockParamNames
  match res.1 with
  | none => (none, res.2)
  | some tsType =>
    if nullable && tsType ≠ "void" then
      if hasSubstr tsType "=>" then (some ("(" ++ tsType ++ ") | null"), res.2)
      else (some (tsType ++ " | null"), res.2)
    else (some tsType, res.2)

/-! ### Conformance closure builder (src/generator/index.ts, phase 4) -/

mutual

/-- index.ts `getTransitiveParentProtocols(protoName, visited)`, fuel-indexed
with the mutated `visited` set threaded through (returned as the second
component).  `prot` is `allParsedProtocols` as an association list from
protocol name to its `extendedProtocols`.  With fuel `0` the call returns
without expanding, which never happens for the fuel bound used by
`buildConformerMap` (see the sufficiency lemmas). -/
def gtpp (prot : List (String × List String)) (fuel : Nat) (protoName : String)
    (visited : List String) : List String × List String :=
  match fuel with
  | 0 => ([], visited)
  | Nat.succ fuel =>
    if protoName ∈ visited then ([], visited)
    else
      match lookupTbl prot protoName with
      | none => ([], protoName :: visited)
      | some parents => gtppList prot fuel parents (protoName :: visited)
termination_by (fuel, 0)

/-- The `for (const parent of proto.extendedProtocols)` loop of
`getTransitiveParentProtocols`: pushes each parent and then the parent's own
transitive result, threading the visited set. -/
def gtppList (prot : List (String × List String)) (fuel : Nat)
    (parents : List String) (visited : List String) : List String × List String :=
  match parents with
  | [] => ([], visited)
  | q :: rest =>
    let r1 := gtpp prot fuel q visited
    let r2 := gtppList prot fuel rest r1.2
    (q :: (r1.1 ++ r2.1), r2.2)
termination_by (fuel, parents.length + 1)

end

/-- `protocolConformers.get(p).add(c)` with creation of a missing entry
(the `if (!protocolConformers.has(p)) set(p, new Set())` pattern): a `Set`
is an insertion-ordered duplicate-free list, so adding appends when new. -/
def addConformer (m : List (String × List String)) (protoName cls : String) :
    List (String × List String) :=
  match m with
  | [] => [(protoName, [cls])]
  | (k, s) :: rest =>
    if k = protoName then (k, if memTbl s cls then s else s ++ [cls]) :: rest
    else (k, s) :: addConformer rest protoName cls

/-- The first pass of the conformance closure (index.ts lines 689-698):
collect every direct (class, protocol) conformance.  `classes` is
`allParsedClasses` reduced to each class's conformed protocol names (the
`parsedClassNames.has` guard of the source is a tautology there, since
`parsedClassNames` is built from the same map's keys). -/
def directConformers (classes : List (String × List String)) :
    List (String × List String) :=
  classes.foldl (fun m cp => cp.2.foldl (fun m pn => addConformer m pn cp.1) m) []

/-- The fuel bound used for the closure walk: one more than the number of
protocol names occurring in the parsed-protocol table (keys and parents),
which bounds the number of nodes the visited set can ever absorb from
expansion. -/
def closureFuel (prot : List (String × List String)) : Nat :=
  (prot.map Prod.fst ++ prot.flatMap Prod.snd).length + 1

/-- The second pass of the conformance closure (index.ts lines 717-727):
for every protocol entry present when the loop starts, walk its transitive
ancestors and union the (current) conformer set into each of them.  In the
source the loop iterates a snapshot `[...protocolConformers]` whose `Set`
values alias the live map, so the conformers of an entry are read at the
time its iteration runs: here that is the lookup in the accumulated `m`. -/
def closurePass (prot : List (String × List String))
    (m0 : List (String × List String)) : List (String × List String) :=
  m0.foldl
    (fun m entry =>
      let conformers := (lookupTbl m entry.1).getD []
      let ancestors := (gtpp prot (closureFuel prot) entry.1 []).1
      ancestors.foldl (fun m anc => conformers.foldl (fun m c => addConformer m anc c) m) m)
    m0

/-- The full conformance closure of index.ts phase 4: direct pass then
transitive propagation.  `classes` maps class name to conformed protocol
names; `prot` maps protocol name to extended protocol names. -/
def buildConformerMap (classes prot : List (String × List String)) :
    List (String × List String) :=
  closurePass prot (directConformers classes)

/-- A direct protocol-extension edge of the parsed-protocol table:
`a` extends `b`. -/
inductive ProtoEdge (prot : List (String × List String)) : String → String → Prop
  | mk (a b : String) (ps : List String) :
      lookupTbl prot a = some ps → b ∈ ps → ProtoEdge prot a b

/-! ### Parse-worker fallback merge (src/generator/parse-worker.ts) -/

/-- `Map.prototype.set` restricted to absent keys, as used by every fallback
merge loop (`if (!classes.has(name)) classes.set(name, cls)`): a new key is
appended in insertion order, an existing key leaves the map unchanged. -/
def setIfAbsent {α : Type} (m : List (String × α)) (k : String) (v : α) :
    List (String × α) :=
  if (lookupTbl m k).isSome then m else m ++ [(k, v)]

/-- One fallback merge loop: add only the fallback entries whose key is
missing from the primary map. -/
def mergeMissing {α : Type} (primary fallback : List (String × α)) :
    List (String × α) :=
  fallback.foldl (fun m e => setIfAbsent m e.1 e.2) primary

/-- The declaration maps produced by one `parse-all` invocation of the
worker; the payload types of the five categories are abstract here, and
struct aliases carry their `name`/`target` pair. -/
structure AllResult (κ π ε σ τ : Type) where
  classes : List (String × κ)
  protocols : List (String × π)
  integerEnums : List (String × ε)
  stringEnums : List (String × σ)
  structs : List (String × τ)
  structAliases : List (String × String)
deriving DecidableEq

/-- The requested names of one batch (`classTargets`, `protocolTargets`,
`integerEnumTargets`, `stringEnumTargets` of the worker message). -/
structure BatchTargets where
  classTargets : List String
  protocolTargets : List String
  integerEnumTargets : List String
  stringEnumTargets : List String
deriving DecidableEq

/-- The alias merge of the fallback path: push each fallback alias whose
name is not already present (`!structResult.aliases.some(a => a.name === alias.name)`). -/
def mergeAliases (primary fallback : List (String × String)) : List (String × String) :=
  fallback.foldl
    (fun acc a => if acc.any (fun b => b.1 = a.1) then acc else acc ++ [a]) primary

/-- The `parse-all` handler of parse-worker.ts (lines 169-248) after both
compiler invocations, as a function of the primary results, the results the
pre-include fallback parse would produce, and whether `fallbackPreIncludes`
was supplied: per-category missing detection, conditional re-parse, and
merge of only the missing entries.  (The fallback maps are only consulted
for categories detected as missing, exactly as the source only runs the
fallback parsers for those.) -/
def missingCat (targetCount primaryCount : Nat) : Bool :=
  targetCount > 0 && primaryCount < targetCount

def parseAllMerge {κ π ε σ τ : Type} (targets : BatchTargets)
    (primary fallback : AllResult κ π ε σ τ) (hasFallback : Bool) :
    AllResult κ π ε σ τ :=
  if (missingCat targets.classTargets.length primary.classes.length ||
      missingCat targets.protocolTargets.length primary.protocols.length ||
      missingCat targets.integerEnumTargets.length primary.integerEnums.length ||
      missingCat targets.stringEnumTargets.length primary.stringEnums.length) &&
      hasFallback then
    { classes :=
        if missingCat targets.classTargets.length primary.classes.length then
          mergeMissing primary.classes fallback.classes
        else primary.classes
      protocols :=
        if missingCat targets.protocolTargets.length primary.protocols.length then
          mergeMissing primary.protocols fallback.protocols
        else primary.protocols
      integerEnums :=
        if missingCat targets.integerEnumTargets.length primary.integerEnums.length then
          mergeMissing primary.integerEnums fallback.integerEnums
        else primary.integerEnums
      stringEnums :=
        if missingCat targets.stringEnumTargets.length primary.stringEnums.length then
          mergeMissing primary.stringEnums fallback.stringEnums
        else primary.stringEnums
      structs := mergeMissing primary.structs fallback.structs
      structAliases := mergeAliases primary.structAliases fallback.structAliases }
  else primary

/-! ### Integer enum value inference (src/generator/ast-parser.ts,
`parseIntegerEnums`) -/

/-- The constant-resolution loop of `parseIntegerEnums` (ast-parser.ts lines
600-620): each constant either carries an explicit `ConstantExpr` value
(modelled as `some v`; the source keeps it as a decimal string and computes
`parseInt(value, 10) + 1`) which resets the implicit counter to `v + 1`, or
takes the running counter and increments it.  `counter` is
`implicitNextValue`, initially 0. -/
def resolveEnumConstants (counter : Int) :
    List (String × Option Int) → List (String × Int)
  | [] => []
  | (n, some v) :: rest => (n, v) :: resolveEnumConstants (v + 1) rest
  | (n, none) :: rest => (n, counter) :: resolveEnumConstants (counter + 1) rest

/-- The values of an integer enum as extracted from its
`EnumConstantDecl` children. -/
def parseIntegerEnumValues (cs : List (String × Option Int)) : List (String × Int) :=
  resolveEnumConstants 0 cs

/-- The counter value after a prefix of constants, per the C enumeration
semantics the specification states: an explicit value resets the
next-implicit counter to value + 1, an omitted value takes the running
counter (incrementing it). -/
def cEnumCounterAfter (cs : List (String × Option Int)) : Int :=
  cs.foldl (fun acc c => match c.2 with | some v => v + 1 | none => acc + 1) 0

/-- The specification's description of enum value inference, written as a
per-index rule over prefixes: the i-th constant takes its explicit value if
present, otherwise the counter accumulated over the preceding constants.
This is the claim-side formulation to be compared with
`parseIntegerEnumValues`. -/
def cEnumSpecValues (cs : List (String × Option Int)) : List (String × Int) :=
  (List.range cs.length).filterMap (fun i =>
    match cs.get? i with
    | none => none
    | some (n, some v) => some (n, v)
    | some (n, none) => some (n, cEnumCounterAfter (cs.take i)))

/-! ### Known-name sets at resolution time (src/generator/index.ts) -/

/-- The discovery result for one framework: the names found by header-text
scanning (frameworks.ts / discover.ts), as consumed by index.ts phase 1. -/
structure FrameworkNames where
  name : String
  classes : List String
  protocols : List String
  integerEnums : List String
  stringEnums : List String
deriving DecidableEq

/-- `Set.prototype.add`: append when new. -/
def addToSet (l : List String) (x : String) : List String :=
  if memTbl l x then l else l ++ [x]

/-- Adding a list of names to a set in order. -/
def addAllToSet (l : List String) (xs : List String) : List String :=
  xs.foldl addToSet l

/-- The known-integer-enum set consulted by the Type Resolution Engine: set
once at index.ts lines 165-176 from the *discovered* names of every
framework and never narrowed afterwards. -/
def knownIntegerEnumsAtResolution (fws : List FrameworkNames) : List String :=
  fws.foldl (fun acc fw => addAllToSet acc fw.integerEnums) []

/-- The known-string-enum set consulted by the Type Resolution Engine: set
once at index.ts lines 165-177 from the *discovered* names and never
narrowed afterwards. -/
def knownStringEnumsAtResolution (fws : List FrameworkNames) : List String :=
  fws.foldl (fun acc fw => addAllToSet acc fw.stringEnums) []

/-- The known-class set consulted by the Type Resolution Engine after the
narrowing of index.ts lines 645-679: the parsed class names, plus — for
filtered runs — the discovered classes of every framework that was not
processed in this run. -/
def knownClassesAtResolution (fws : List FrameworkNames)
    (processedNames : List String) (parsedClassNames : List String) : List String :=
  fws.foldl
    (fun acc fw =>
      if memTbl processedNames fw.name then acc else addAllToSet acc fw.classes)
    parsedClassNames

/-- The known-protocol set consulted by the Type Resolution Engine after the
narrowing of index.ts lines 645-680: parsed protocol names plus discovered
protocols of non-processed frameworks. -/
def knownProtocolsAtResolution (fws : List FrameworkNames)
    (processedNames : List String) (parsedProtocolNames : List String) : List String :=
  fws.foldl
    (fun acc fw =>
      if memTbl processedNames fw.name then acc else addAllToSet acc fw.protocols)
    parsedProtocolNames

/-! ### Class / category extraction (src/generator/ast-parser.ts,
`parseAST` / `processInterfaceOrCategory`)

The embedding models `parseAST(root, targets)` as invoked without header
lines (`headerLines` is an optional parameter; when it is absent,
`scanForDeprecation` returns `{ isDeprecated: false }` without a message,
so the textual deprecation scan contributes nothing). -/

/-- A node of the clang declaration tree, restricted to the fields the
class extraction reads: `kind`, `name`, `isImplicit`, the `instance` flag
of method declarations, `returnType.qualType`, `type.qualType`, the
`readonly` and `class` property flags, `super.name`, the protocol
references' names, the `text` of comment nodes, and the children. -/
inductive ClangNode where
  | node (kind : String) (name : Option String) (isImplicit : Bool)
      (instanceAttr : Option Bool) (returnTypeQual : Option String)
      (typeQual : Option String) (readonlyAttr : Bool) (classAttr : Bool)
      (superName : Option String) (protocolRefs : List String)
      (text : Option String) (inner : List ClangNode)

def ClangNode.kind : ClangNode → String
  | .node k _ _ _ _ _ _ _ _ _ _ _ => k

def ClangNode.name : ClangNode → Option String
  | .node _ n _ _ _ _ _ _ _ _ _ _ => n

def ClangNode.isImplicit : ClangNode → Bool
  | .node _ _ i _ _ _ _ _ _ _ _ _ => i

def ClangNode.instanceAttr : ClangNode → Option Bool
  | .node _ _ _ ia _ _ _ _ _ _ _ _ => ia

def ClangNode.returnTypeQual : ClangNode → Option String
  | .node _ _ _ _ r _ _ _ _ _ _ _ => r

def ClangNode.typeQual : ClangNode → Option String
  | .node _ _ _ _ _ t _ _ _ _ _ _ => t

def ClangNode.readonlyAttr : ClangNode → Bool
  | .node _ _ _ _ _ _ r _ _ _ _ _ => r

def ClangNode.classAttr : ClangNode → Bool
  | .node _ _ _ _ _ _ _ c _ _ _ _ => c

def ClangNode.superName : ClangNode → Option String
  | .node _ _ _ _ _ _ _ _ s _ _ _ => s

def ClangNode.protocolRefs : ClangNode → List String
  | .node _ _ _ _ _ _ _ _ _ p _ _ => p

def ClangNode.text : ClangNode → Option String
  | .node _ _ _ _ _ _ _ _ _ _ t _ => t

def ClangNode.inner : ClangNode → List ClangNode
  | .node _ _ _ _ _ _ _ _ _ _ _ i => i

/-- Collapse whitespace runs to single spaces: `.replace(/\s+/g, " ")`.
The Boolean records whether the previous character was whitespace (already
emitted as the run's single space). -/
def collapseWsL (afterWs : Bool) : List Char → List Char
  | [] => []
  | c :: cs =>
    if isWsChar c then
      if afterWs then collapseWsL true cs else ' ' :: collapseWsL true cs
    else c :: collapseWsL false cs

/-- The `walk` of ast-parser.ts `extractCommentText`: collects the `text`
of every `TextComment` node in the subtree, in document order (a text is
pushed only when truthy, i.e. non-empty). -/
def collectTextComments : ClangNode → List String
  | .node k _ _ _ _ _ _ _ _ _ text inner =>
    (if k = "TextComment" then
      (match text with
       | some t => if t = "" then [] else [t]
       | none => [])
     else []) ++ inner.attach.foldr (fun c acc => collectTextComments c.1 ++ acc) []
decreasing_by
  have h := List.sizeOf_lt_of_mem c.2
  simp only [ClangNode.node.sizeOf_spec]
  omega

/-- ast-parser.ts `extractCommentText`: joins the collected texts, trimmed,
dropping blanks, with whitespace collapsed and a final trim. -/
def extractCommentText (n : ClangNode) : String :=
  trimStr
    ⟨collapseWsL false
      (String.intercalate " "
        (((collectTextComments n).map trimStr).filter (fun t => t ≠ ""))).data⟩

/-- ast-parser.ts `extractDescription`: the first `FullComment` child whose
extracted text is non-empty. -/
def extractDescription (n : ClangNode) : Option String :=
  descGo n.inner
where
  descGo : List ClangNode → Option String
    | [] => none
    | c :: rest =>
      if c.kind = "FullComment" then
        let t := extractCommentText c
        if t ≠ "" then some t else descGo rest
      else descGo rest

/-- ast-parser.ts inner `isDeprecated`: a structural `DeprecatedAttr` child. -/
def nodeIsDeprecated (n : ClangNode) : Bool :=
  n.inner.any (fun c => c.kind = "DeprecatedAttr")

/-- ast-parser.ts inner `isUnavailable`: an `UnavailableAttr` child. -/
def nodeIsUnavailable (n : ClangNode) : Bool :=
  n.inner.any (fun c => c.kind = "UnavailableAttr")

/-- A method record (ast-parser.ts `ObjCMethod`). -/
structure ObjCMethodR where
  selector : String
  returnType : String
  parameters : List (String × String)
  isClassMethod : Bool
  isDeprecated : Bool
  deprecationMessage : Option String
  description : Option String
deriving DecidableEq

/-- A property record (ast-parser.ts `ObjCProperty`). -/
structure ObjCPropertyR where
  name : String
  type : String
  readonly : Bool
  isClassProperty : Bool
  isDeprecated : Bool
  deprecationMessage : Option String
  description : Option String
deriving DecidableEq

/-- A class record (ast-parser.ts `ObjCClass`). -/
structure ObjCClassR where
  name : String
  superclass : Option String
  protocols : List String
  instanceMethods : List ObjCMethodR
  classMethods : List ObjCMethodR
  properties : List ObjCPropertyR
deriving DecidableEq

/-- ast-parser.ts `extractMethod` (with `headerLines` absent, so the
textual deprecation scan yields `false` and no message). -/
def extractMethod (n : ClangNode) : Option ObjCMethodR :=
  if n.kind ≠ "ObjCMethodDecl" then none
  else if n.isImplicit then none
  else if nodeIsUnavailable n then none
  else
    some
      { selector := n.name.getD ""
        returnType := n.returnTypeQual.getD "void"
        parameters := n.inner.foldr
          (fun c acc =>
            if c.kind = "ParmVarDecl" then (c.name.getD "arg", c.typeQual.getD "id") :: acc
            else acc) []
        isClassMethod := n.instanceAttr = some false
        isDeprecated := nodeIsDeprecated n
        deprecationMessage := none
        description := extractDescription n }

/-- ast-parser.ts `extractProperty` (with `headerLines` absent). -/
def extractProperty (n : ClangNode) : Option ObjCPropertyR :=
  if n.kind ≠ "ObjCPropertyDecl" then none
  else if n.isImplicit then none
  else
    some
      { name := n.name.getD ""
        type := n.typeQual.getD "id"
        readonly := n.readonlyAttr
        isClassProperty := n.classAttr
        isDeprecated := nodeIsDeprecated n
        deprecationMessage := none
        description := extractDescription n }

/-- The member loop of `processInterfaceOrCategory` (ast-parser.ts lines
351-374): walks the declaration's children, appending extracted methods and
properties whose selector / name is not in the running seen sets (which the
caller initialises from the class record's current members, and which are
extended as members are appended). -/
def mergeMembers (cls : ObjCClassR) (instSeen clsSeen propSeen : List String) :
    List ClangNode → ObjCClassR
  | [] => cls
  | child :: rest =>
    if child.kind = "ObjCMethodDecl" then
      match extractMethod child with
      | none => mergeMembers cls instSeen clsSeen propSeen rest
      | some m =>
        if m.isClassMethod then
          if memTbl clsSeen m.selector then mergeMembers cls instSeen clsSeen propSeen rest
          else
            mergeMembers { cls with classMethods := cls.classMethods ++ [m] }
              instSeen (clsSeen ++ [m.selector]) propSeen rest
        else
          if memTbl instSeen m.selector then mergeMembers cls instSeen clsSeen propSeen rest
          else
            mergeMembers { cls with instanceMethods := cls.instanceMethods ++ [m] }
              (instSeen ++ [m.selector]) clsSeen propSeen rest
    else if child.kind = "ObjCPropertyDecl" then
      match extractProperty child with
      | none => mergeMembers cls instSeen clsSeen propSeen rest
      | some p =>
        if memTbl propSeen p.name then mergeMembers cls instSeen clsSeen propSeen rest
        else
          mergeMembers { cls with properties := cls.properties ++ [p] }
            instSeen clsSeen (propSeen ++ [p.name]) rest
    else mergeMembers cls instSeen clsSeen propSeen rest

/-- ast-parser.ts `getOrCreateClass`. -/
def getOrCreateClass (classes : List (String × ObjCClassR)) (name : String) : ObjCClassR :=
  match lookupTbl classes name with
  | some c => c
  | none => ⟨name, none, [], [], [], []⟩

/-- Store a class record back into the map (in-place mutation of the
looked-up record in the source; here: update an existing entry or append). -/
def setClass (classes : List (String × ObjCClassR)) (name : String) (c : ObjCClassR) :
    List (String × ObjCClassR) :=
  match classes with
  | [] => [(name, c)]
  | (k, v) :: rest =>
    if k = name then (k, c) :: rest else (k, v) :: setClass rest name c

/-- ast-parser.ts `processInterfaceOrCategory`: skips non-target classes,
creates or fetches the record, sets the superclass from interface
declarations, unions the conformed protocol names, then merges the members
with the deduplicating loop. -/
def processInterfaceOrCategory (targets : List String)
    (classes : List (String × ObjCClassR)) (nd : ClangNode) (className : String) :
    List (String × ObjCClassR) :=
  if ¬ memTbl targets className then classes
  else
    let cls := getOrCreateClass classes className
    let cls :=
      if nd.kind = "ObjCInterfaceDecl" then
        match nd.superName with
        | some s => { cls with superclass := some s }
        | none => cls
      else cls
    let cls := nd.protocolRefs.foldl
      (fun c pn => if pn ∈ c.protocols then c else { c with protocols := c.protocols ++ [pn] })
      cls
    let cls := mergeMembers cls (cls.instanceMethods.map (fun m => m.selector))
      (cls.classMethods.map (fun m => m.selector))
      (cls.properties.map (fun p => p.name)) nd.inner
    setClass classes className cls

/-! ### Worker pool dispatch (src/generator/templates/data.ts, `WorkerPool`) -/

/-- The scheduling state of the `WorkerPool`: `idle` is the idle-worker
stack with its most recently idled worker first (the source uses a JS array
with `push`/`pop` at the end); `queue` is the task queue, oldest first
(`push` at the end, `shift` from the front); `pending` maps each busy
worker to its in-flight task (`Map<Worker, PendingTask>`). -/
structure PoolState (τ : Type) where
  idle : List Nat
  queue : List τ
  pending : List (Nat × τ)
deriving DecidableEq

/-- `Map.prototype.delete` on the pending map. -/
def removePending {τ : Type} (pending : List (Nat × τ)) (w : Nat) : List (Nat × τ) :=
  pending.filter (fun e => e.1 ≠ w)

/-- data.ts `WorkerPool.dispatch`: pop an idle worker (most recently idled
first) and hand it the task; with no idle worker, queue the task at the
back. -/
def poolDispatch {τ : Type} (s : PoolState τ) (t : τ) : PoolState τ :=
  match s.idle with
  | w :: restIdle => { s with idle := restIdle, pending := (w, t) :: s.pending }
  | [] => { s with queue := s.queue ++ [t] }

/-- data.ts `onWorkerMessage`/`onWorkerError` followed by `dispatchNext`:
the worker's pending entry is deleted, then the oldest queued task (if any)
is dispatched to that worker, otherwise it is pushed onto the idle stack. -/
def poolComplete {τ : Type} (s : PoolState τ) (w : Nat) : PoolState τ :=
  let pending := removePending s.pending w
  match s.queue with
  | t :: restQueue => { s with queue := restQueue, pending := (w, t) :: pending }
  | [] => { s with idle := w :: s.idle, pending := pending }

/-- Well-formedness of a pool state: no duplicate idle workers, at most one
in-flight task per worker, and no worker both idle and busy. -/
def PoolWF {τ : Type} (s : PoolState τ) : Prop :=
  s.idle.Nodup ∧ (s.pending.map Prod.fst).Nodup ∧
    ∀ w ∈ s.idle, w ∉ s.pending.map Prod.fst

/-! ### Auxiliary notions used by the claim statements -/

/-- A non-empty protocol name made only of ASCII letters (the shape of every
protocol identifier; rules out the meta-characters the resolution branches
test for). -/
def isAlphaName (P : String) : Bool :=
  !P.data.isEmpty && P.data.all (fun c => c.isAlpha)

/-- Faithfulness of one category's fallback merge, as the specification
states it: every primary entry survives unchanged, and everything else in
the merged map is a fallback entry whose name was missing from the primary
results. -/
def mergedFaithfully {α : Type} (primary fallback merged : List (String × α)) : Prop :=
  (∀ k v, lookupTbl primary k = some v → lookupTbl merged k = some v) ∧
  (∀ k v, lookupTbl merged k = some v →
    lookupTbl primary k = some v ∨
      (lookupTbl primary k = none ∧ lookupTbl fallback k = some v))

/-- The number of elements of `U` not yet in the visited list `v` — the fuel
measure of the conformance-closure walk. -/
def countNotIn (U v : List String) : Nat :=
  (U.filter (fun x => decide (x ∉ v))).length

/-- The name universe of the parsed-protocol table: its keys and every
extended-protocol name, the only strings the closure walk can ever add to
its visited set by expansion. -/
def protoUniverse (prot : List (String × List String)) : List String :=
  prot.map Prod.fst ++ prot.flatMap Prod.snd

/-- The instance-method selectors a declaration node contributes
(its extracted non-class methods, in document order). -/
def nodeInstSelectors (n : ClangNode) : List String :=
  n.inner.foldr
    (fun c acc =>
      match extractMethod c with
      | some m => if m.isClassMethod then acc else m.selector :: acc
      | none => acc) []

/-- The class-method selectors a declaration node contributes. -/
def nodeClsSelectors (n : ClangNode) : List String :=
  n.inner.foldr
    (fun c acc =>
      match extractMethod c with
      | some m => if m.isClassMethod then m.selector :: acc else acc
      | none => acc) []

/-- The property names a declaration node contributes. -/
def nodePropNames (n : ClangNode) : List String :=
  n.inner.foldr
    (fun c acc =>
      match extractProperty c with
      | some p => p.name :: acc
      | none => acc) []

/-- The instance-method selectors a child list contributes, in document
order (list-level form of `nodeInstSelectors`). -/
def instSelsL (children : List ClangNode) : List String :=
  children.foldr
    (fun c acc =>
      match extractMethod c with
      | some m => if m.isClassMethod then acc else m.selector :: acc
      | none => acc) []

/-- The class-method selectors a child list contributes. -/
def clsSelsL (children : List ClangNode) : List String :=
  children.foldr
    (fun c acc =>
      match extractMethod c with
      | some m => if m.isClassMethod then m.selector :: acc else acc
      | none => acc) []

/-- The property names a child list contributes. -/
def propNamesL (children : List ClangNode) : List String :=
  children.foldr
    (fun c acc =>
      match extractProperty c with
      | some p => p.name :: acc
      | none => acc) []

/-- The effect of the deduplicating member loop on a name list: append each
new element of the second list, left to right, skipping names already
present. -/
def dedupAppend (seen : List String) : List String → List String
  | [] => seen
  | x :: xs =>
    if memTbl seen x then dedupAppend seen xs else dedupAppend (seen ++ [x]) xs

/-- The member-name sets of a class record, the identity under which the
merge deduplicates: instance-method selectors, class-method selectors and
property names. -/
def classMemberNames (c : ObjCClassR) : List String × List String × List String :=
  (c.instanceMethods.map (fun m => m.selector),
   c.classMethods.map (fun m => m.selector),
   c.properties.map (fun p => p.name))

/-- The empty class record `getOrCreateClass` makes for a fresh name. -/
def emptyClassR (name : String) : ObjCClassR := ⟨name, none, [], [], [], []⟩

/-- The table state whose typedef table routes a cycle through a block
type: `A` is a typedef for the block type `A (^)(void)`. -/
def cycBlockSt : TMState :=
  { TMState.empty with knownTypedefs := [("A", "A (^)(void)")] }

/-- The table state with the plain typedef cycle `A -> B -> A` of the
specification's cycle-safety scenario. -/
def abaSt : TMState :=
  { TMState.empty with knownTypedefs := [("A", "B"), ("B", "A")] }

/-- The some-branch of the protocol-existential rule of `mapTypeInner`
(type-mapper.ts lines 425-457), specialised to the case where the capture
holds a single protocol name `P` (no comma): `protoNames` is `[P]`.  Used
as the target of the `protoOrFallback` reduction for `id<P>` inputs. -/
def pofBody (st : TMState) (P : String) (isReturnType : Bool) :
    Option String × TMState :=
  let protoNames : List String := [P]
  let expanded : Option String :=
    if isReturnType && protoNames.length = 1 then
      match protoNames with
      | protoName :: _ =>
        match lookupTbl st.protocolConformers protoName with
        | some conformers =>
          if conformers.length > 0 && conformers.length ≤ 30 then
            some (String.intercalate " | " ((sortStrs conformers).map (fun c => "_" ++ c)))
          else none
        | none => none
      | [] => none
    else none
  match expanded with
  | some u => (some u, st)
  | none =>
    let unionParts := protoNames.foldr
      (fun protoName acc =>
        if memTbl st.knownProtocols protoName then ("_" ++ protoName) :: acc
        else if memTbl st.knownClasses protoName then ("_" ++ protoName) :: acc
        else acc) []
    if unionParts.isEmpty then (some "NobjcObject", st)
    else (some (String.intercalate " | " (dedupFirst [] unionParts)), st)

/-- The table state of the specification's end-to-end scenario: a protocol
`Credential` with exactly the two known conformers `C` and `A`. -/
def credSt : TMState :=
  { TMState.empty with
      knownProtocols := ["Credential"],
      protocolConformers := [("Credential", ["C", "A"])] }

/-- A primary interface declaration node for class `C` (no members), for
the merge-commutativity scenario. -/
def c6nd1 : ClangNode :=
  ClangNode.node "ObjCInterfaceDecl" (some "C") false none none none false false
    (some "NSObject") [] none []

/-- A category declaration node targeting class `C` (no members). -/
def c6nd2 : ClangNode :=
  ClangNode.node "ObjCCategoryDecl" (some "CExt") false none none none false false
    none [] none []

/-- Invariant of one `getTransitiveParentProtocols` call (for sufficient
fuel): the visited set only grows, the walked protocol ends up visited, and
every protocol newly visited during the call has all of its extended
protocols in both the returned parents list and the final visited set. -/
def GtppSpec (prot : List (String × List String)) (fuel : Nat) (p : String)
    (v : List String) : Prop :=
  v ⊆ (gtpp prot fuel p v).2 ∧ p ∈ (gtpp prot fuel p v).2 ∧
  ∀ u, u ∈ (gtpp prot fuel p v).2 → u ∉ v →
    ∀ ps, lookupTbl prot u = some ps →
      ∀ q ∈ ps, q ∈ (gtpp prot fuel p v).1 ∧ q ∈ (gtpp prot fuel p v).2

/-- Invariant of the parent loop of `getTransitiveParentProtocols`: the
visited set only grows, every loop element lands in the result and the
visited set, and every protocol newly visited during the loop has all of
its extended protocols in the result and the final visited set. -/
def GtppListSpec (prot : List (String × List String)) (fuel : Nat)
    (parents : List String) (v : List String) : Prop :=
  v ⊆ (gtppList prot fuel parents v).2 ∧
  (∀ q ∈ parents,
    q ∈ (gtppList prot fuel parents v).1 ∧ q ∈ (gtppList prot fuel parents v).2) ∧
  ∀ u, u ∈ (gtppList prot fuel parents v).2 → u ∉ v →
    ∀ ps, lookupTbl prot u = some ps →
      ∀ q ∈ ps, q ∈ (gtppList prot fuel parents v).1 ∧
        q ∈ (gtppList prot fuel parents v).2

/-! ## Generic lemmas about the table model -/

theorem memTbl_iff (l : List String) (s : String) : memTbl l s = true ↔ s ∈ l := by
  induction l with
  | nil => simp [memTbl]
  | cons k rest ih =>
    simp only [memTbl, List.mem_cons]
    by_cases h : k = s
    · simp [h, eq_comm]
    · rw [if_neg h, ih]
      constructor
      · exact fun hm => Or.inr hm
      · rintro (hs | hm)
        · exact absurd hs.symm h
        · exact hm

theorem memTbl_eq_false_iff (l : List String) (s : String) :
    memTbl l s = false ↔ s ∉ l := by
  rw [← memTbl_iff l s]
  cases memTbl l s <;> simp

theorem lookupTbl_eq_none_iff {α : Type} (l : List (String × α)) (s : String) :
    lookupTbl l s = none ↔ ∀ e ∈ l, e.1 ≠ s := by
  induction l with
  | nil => simp [lookupTbl]
  | cons e rest ih =>
    obtain ⟨k, v⟩ := e
    simp only [lookupTbl]
    by_cases h : k = s
    · subst h; simp
    · simp [h, ih]

theorem lookupTbl_mem {α : Type} (l : List (String × α)) (s : String) (v : α)
    (h : lookupTbl l s = some v) : (s, v) ∈ l := by
  induction l with
  | nil => simp [lookupTbl] at h
  | cons e rest ih =>
    obtain ⟨k, w⟩ := e
    simp only [lookupTbl] at h
    split at h
    · rename_i heq
      injection h with h2
      subst heq
      subst h2
      exact List.mem_cons_self _ _
    · exact List.mem_cons_of_mem _ (ih h)

/-! ## C9: worker pool dispatch -/

theorem removePending_keys_sub {τ : Type} (l : List (Nat × τ)) (w x : Nat)
    (h : x ∈ (removePending l w).map Prod.fst) : x ∈ l.map Prod.fst := by
  obtain ⟨e, he, hx⟩ := List.mem_map.mp h
  exact List.mem_map.mpr ⟨e, (List.mem_filter.mp he).1, hx⟩

theorem removePending_keys_ne {τ : Type} (l : List (Nat × τ)) (w x : Nat)
    (h : x ∈ (removePending l w).map Prod.fst) : x ≠ w := by
  obtain ⟨e, he, hx⟩ := List.mem_map.mp h
  have h2 := (List.mem_filter.mp he).2
  rw [← hx]
  simpa using h2

theorem removePending_keys_nodup {τ : Type} (l : List (Nat × τ)) (w : Nat)
    (h : (l.map Prod.fst).Nodup) : ((removePending l w).map Prod.fst).Nodup := by
  induction l with
  | nil => simp [removePending]
  | cons e rest ih =>
    simp only [List.map_cons, List.nodup_cons] at h
    by_cases hw : e.1 = w
    · have he : removePending (e :: rest) w = removePending rest w := by
        simp [removePending, List.filter_cons, hw]
      rw [he]
      exact ih h.2
    · have he : removePending (e :: rest) w = e :: removePending rest w := by
        simp [removePending, List.filter_cons, hw]
      rw [he]
      simp only [List.map_cons, List.nodup_cons]
      exact ⟨fun hc => h.1 (removePending_keys_sub rest w e.1 hc), ih h.2⟩

/-- C9: in the worker pool, a submitted task goes immediately to the most
recently idled worker when one is idle and is queued at the back otherwise;
a completing worker immediately receives the oldest queued task, or returns
to the idle stack when the queue is empty; and the scheduling invariant —
at most one in-flight task per worker, no worker both idle and busy — is
preserved by both transitions. -/
theorem c9_worker_pool_dispatch {τ : Type} (s : PoolState τ) (t : τ) (w : Nat) :
    (∀ rest, s.idle = w :: rest →
      poolDispatch s t = { s with idle := rest, pending := (w, t) :: s.pending }) ∧
    (s.idle = [] → poolDispatch s t = { s with queue := s.queue ++ [t] }) ∧
    (∀ q qrest, s.queue = q :: qrest →
      poolComplete s w =
        { s with queue := qrest, pending := (w, q) :: removePending s.pending w }) ∧
    (s.queue = [] →
      poolComplete s w = { s with idle := w :: s.idle, pending := removePending s.pending w }) ∧
    (PoolWF s → PoolWF (poolDispatch s t)) ∧
    (PoolWF s → w ∉ s.idle → PoolWF (poolComplete s w)) := by
  refine ⟨?_, ?_, ?_, ?_, ?_, ?_⟩
  · intro rest h
    simp [poolDispatch, h]
  · intro h
    simp [poolDispatch, h]
  · intro q qrest h
    simp [poolComplete, h]
  · intro h
    simp [poolComplete, h]
  · rintro ⟨h1, h2, h3⟩
    rcases hidle : s.idle with _ | ⟨w0, rest⟩
    · unfold poolDispatch
      rw [hidle]
      exact ⟨by rw [hidle] at h1; exact h1, h2, by rw [hidle] at h3; exact h3⟩
    · unfold poolDispatch
      rw [hidle]
      rw [hidle] at h1
      refine ⟨(List.nodup_cons.mp h1).2, ?_, ?_⟩
      · simp only [List.map_cons, List.nodup_cons]
        exact ⟨h3 w0 (by rw [hidle]; exact List.mem_cons_self _ _), h2⟩
      · intro x hx
        simp only [List.map_cons, List.mem_cons, not_or]
        constructor
        · intro hxw
          subst hxw
          exact (List.nodup_cons.mp h1).1 hx
        · exact h3 x (by rw [hidle]; exact List.mem_cons_of_mem _ hx)
  · rintro ⟨h1, h2, h3⟩ hw
    rcases hq : s.queue with _ | ⟨q, qrest⟩
    · unfold poolComplete
      rw [hq]
      refine ⟨List.nodup_cons.mpr ⟨hw, h1⟩, removePending_keys_nodup _ w h2, ?_⟩
      intro x hx
      rcases List.mem_cons.mp hx with hxw | hxi
      · subst hxw
        exact fun hc => removePending_keys_ne _ x x hc rfl
      · exact fun hc => h3 x hxi (removePending_keys_sub _ w x hc)
    · unfold poolComplete
      rw [hq]
      refine ⟨h1, ?_, ?_⟩
      · simp only [List.map_cons, List.nodup_cons]
        refine ⟨fun hc => ?_, removePending_keys_nodup _ w h2⟩
        exact removePending_keys_ne _ w w hc rfl
      · intro x hx
        simp only [List.map_cons, List.mem_cons, not_or]
        refine ⟨fun hxw => hw (hxw ▸ hx), fun hc => ?_⟩
        exact h3 x hx (removePending_keys_sub _ w x hc)

/-- Witness for C9 at a concrete pool state: with workers 2 (most recently
idled) and 1 idle, a dispatched task goes to worker 2; completing worker 1
of a one-task queue hands it the oldest task; the invariant holds after the
dispatch. -/
theorem c9_worker_pool_dispatch_witness :
    poolDispatch (⟨[2, 1], [], []⟩ : PoolState Nat) 7 =
      { (⟨[2, 1], [], []⟩ : PoolState Nat) with idle := [1], pending := [(2, 7)] } ∧
    poolComplete (⟨[], [8, 9], [(1, 5)]⟩ : PoolState Nat) 1 =
      { (⟨[], [8, 9], [(1, 5)]⟩ : PoolState Nat) with
          queue := [9], pending := [(1, 8)] } ∧
    PoolWF (poolDispatch (⟨[2, 1], [], []⟩ : PoolState Nat) 7) := by
  have h1 := c9_worker_pool_dispatch (⟨[2, 1], [], []⟩ : PoolState Nat) 7 2
  have h2 := c9_worker_pool_dispatch (⟨[], [8, 9], [(1, 5)]⟩ : PoolState Nat) 8 1
  refine ⟨h1.1 [1] rfl, ?_, h1.2.2.2.2.1 (by refine ⟨?_, ?_, ?_⟩ <;> decide)⟩
  have h3 := h2.2.2.1 8 [9] rfl
  rw [h3]
  rfl

/-! ## C4: integer enum value inference -/

/-- The running counter threaded from an arbitrary start. -/
theorem cEnumCounterAfter_cons (x : String × Option Int) (xs : List (String × Option Int)) :
    cEnumCounterAfter (x :: xs) =
      List.foldl (fun acc c => match c.2 with | some v => v + 1 | none => acc + 1)
        (match x.2 with | some v => v + 1 | none => 0 + 1) xs := by
  simp [cEnumCounterAfter, List.foldl_cons]

theorem resolveEnumConstants_spec (cs : List (String × Option Int)) (c0 : Int) :
    resolveEnumConstants c0 cs =
      (List.range cs.length).filterMap (fun i =>
        match cs.get? i with
        | none => none
        | some (n, some v) => some (n, v)
        | some (n, none) =>
          some (n, cs.take i |>.foldl
            (fun acc c => match c.2 with | some v => v + 1 | none => acc + 1) c0)) := by
  induction cs generalizing c0 with
  | nil => simp [resolveEnumConstants]
  | cons x rest ih =>
    obtain ⟨n, ov⟩ := x
    have hrange : List.range (rest.length + 1) = 0 :: (List.range rest.length).map Nat.succ :=
      List.range_succ_eq_map rest.length
    match ov with
    | some v =>
      simp only [resolveEnumConstants, List.length_cons, hrange, List.filterMap_cons,
        List.filterMap_map]
      rw [ih (v + 1)]
      rfl
    | none =>
      simp only [resolveEnumConstants, List.length_cons, hrange, List.filterMap_cons,
        List.filterMap_map]
      rw [ih (c0 + 1)]
      rfl

/-- C4: integer enum constants follow C enumeration semantics with an
implicit counter starting at 0 — an explicit value is taken as-is and
resets the counter to value + 1, an omitted value takes and increments the
running counter (stated as agreement of the extraction loop with the
specification's per-index counter rule) — and in particular the constants
`[A, B=5, C, D=2, E]` resolve to `[0, 5, 6, 2, 3]`. -/
theorem c4_integer_enum_values :
    (∀ cs : List (String × Option Int), parseIntegerEnumValues cs = cEnumSpecValues cs) ∧
    parseIntegerEnumValues
        [("A", none), ("B", some 5), ("C", none), ("D", some 2), ("E", none)] =
      [("A", 0), ("B", 5), ("C", 6), ("D", 2), ("E", 3)] := by
  constructor
  · intro cs
    rw [parseIntegerEnumValues, cEnumSpecValues, resolveEnumConstants_spec cs 0]
    rfl
  · rfl

/-! ## C3: parse-worker fallback merge -/

theorem lookupTbl_append {α : Type} (l1 l2 : List (String × α)) (k : String) :
    lookupTbl (l1 ++ l2) k =
      match lookupTbl l1 k with
      | some v => some v
      | none => lookupTbl l2 k := by
  induction l1 with
  | nil => simp [lookupTbl]
  | cons e rest ih =>
    obtain ⟨k1, v1⟩ := e
    simp only [List.cons_append, lookupTbl]
    by_cases h : k1 = k
    · simp [h]
    · simp [h, ih]

theorem lookupTbl_none_notMem {α : Type} (l : List (String × α)) (k : String)
    (h : lookupTbl l k = none) : k ∉ l.map Prod.fst := by
  intro hmem
  obtain ⟨e, he, hk⟩ := List.mem_map.mp hmem
  exact (lookupTbl_eq_none_iff l k).mp h e he hk

theorem setIfAbsent_pres {α : Type} (m : List (String × α)) (k2 : String) (v2 : α)
    (k : String) (v : α) (h : lookupTbl m k = some v) :
    lookupTbl (setIfAbsent m k2 v2) k = some v := by
  unfold setIfAbsent
  split
  · exact h
  · rw [lookupTbl_append, h]

theorem mergeMissing_pres {α : Type} (p f : List (String × α)) (k : String) (v : α)
    (h : lookupTbl p k = some v) : lookupTbl (mergeMissing p f) k = some v := by
  induction f generalizing p with
  | nil => exact h
  | cons e rest ih =>
    exact ih (setIfAbsent p e.1 e.2) (setIfAbsent_pres p e.1 e.2 k v h)

theorem mergeMissing_from {α : Type} (p f : List (String × α)) (k : String) (v : α)
    (h : lookupTbl (mergeMissing p f) k = some v) :
    lookupTbl p k = some v ∨ (lookupTbl p k = none ∧ lookupTbl f k = some v) := by
  induction f generalizing p with
  | nil => exact Or.inl h
  | cons e rest ih =>
    obtain ⟨k1, v1⟩ := e
    simp only [mergeMissing, List.foldl_cons] at h
    have step := ih (setIfAbsent p k1 v1) h
    by_cases hp : (lookupTbl p k1).isSome
    · have hsame : setIfAbsent p k1 v1 = p := by simp [setIfAbsent, hp]
      rw [hsame] at step
      rcases step with hl | ⟨hn, hr⟩
      · exact Or.inl hl
      · refine Or.inr ⟨hn, ?_⟩
        have hne : k1 ≠ k := by
          intro he
          subst he
          rw [hn] at hp
          simp at hp
        simp [lookupTbl, hne, hr]
    · have habs : setIfAbsent p k1 v1 = p ++ [(k1, v1)] := by
        simp only [setIfAbsent]
        rw [if_neg hp]
      rw [habs] at step
      rcases step with hl | ⟨hn, hr⟩
      · rw [lookupTbl_append] at hl
        cases hpk : lookupTbl p k with
        | some w =>
          rw [hpk] at hl
          exact Or.inl hl
        | none =>
          rw [hpk] at hl
          simp only [lookupTbl] at hl
          split at hl
          · rename_i hke
            refine Or.inr ⟨rfl, ?_⟩
            simp [lookupTbl, hke, hl]
          · simp at hl
      · rw [lookupTbl_append] at hn
        cases hpk : lookupTbl p k with
        | some w => rw [hpk] at hn; simp at hn
        | none =>
          rw [hpk] at hn
          simp only [lookupTbl] at hn
          split at hn
          · simp at hn
          · rename_i hke
            refine Or.inr ⟨rfl, ?_⟩
            simp [lookupTbl, hke, hr]

theorem mergeMissing_keys_nodup {α : Type} (p f : List (String × α))
    (h : (p.map Prod.fst).Nodup) : ((mergeMissing p f).map Prod.fst).Nodup := by
  induction f generalizing p with
  | nil => exact h
  | cons e rest ih =>
    refine ih (setIfAbsent p e.1 e.2) ?_
    unfold setIfAbsent
    split
    · exact h
    · rename_i habs
      rw [List.map_append]
      simp only [List.map_cons, List.map_nil]
      rw [List.nodup_append]
      refine ⟨h, List.nodup_singleton _, ?_⟩
      intro x hx hx1
      simp only [List.mem_singleton] at hx1
      subst hx1
      have : lookupTbl p e.1 = none := by
        cases hc : lookupTbl p e.1 with
        | none => rfl
        | some w => rw [hc] at habs; simp at habs
      exact lookupTbl_none_notMem p e.1 this hx

theorem mergedFaithfully_self {α : Type} (p f : List (String × α)) :
    mergedFaithfully p f p :=
  ⟨fun _ _ h => h, fun _ _ h => Or.inl h⟩

theorem mergedFaithfully_merge {α : Type} (p f : List (String × α)) :
    mergedFaithfully p f (mergeMissing p f) :=
  ⟨fun k v h => mergeMissing_pres p f k v h, fun k v h => mergeMissing_from p f k v h⟩

/-- C3: the `parse-all` fallback merge of the worker is faithful in every
expected declaration category — each declaration found by the primary parse
is present unchanged in the final result, every other final entry is a
fallback entry whose name was missing from the primary results, key
uniqueness is preserved — and when no expected category is short (or no
fallback pre-includes exist) the result is exactly the primary result. -/
theorem c3_fallback_merge {κ π ε σ τ : Type} (targets : BatchTargets)
    (primary fallback : AllResult κ π ε σ τ) (hasFallback : Bool) :
    mergedFaithfully primary.classes fallback.classes
      (parseAllMerge targets primary fallback hasFallback).classes ∧
    mergedFaithfully primary.protocols fallback.protocols
      (parseAllMerge targets primary fallback hasFallback).protocols ∧
    mergedFaithfully primary.integerEnums fallback.integerEnums
      (parseAllMerge targets primary fallback hasFallback).integerEnums ∧
    mergedFaithfully primary.stringEnums fallback.stringEnums
      (parseAllMerge targets primary fallback hasFallback).stringEnums ∧
    ((primary.classes.map Prod.fst).Nodup →
      ((parseAllMerge targets primary fallback hasFallback).classes.map Prod.fst).Nodup) ∧
    ((primary.integerEnums.map Prod.fst).Nodup →
      ((parseAllMerge targets primary fallback hasFallback).integerEnums.map Prod.fst).Nodup) ∧
    ((targets.classTargets.length ≤ primary.classes.length ∨ targets.classTargets = []) →
     (targets.protocolTargets.length ≤ primary.protocols.length ∨ targets.protocolTargets = []) →
     (targets.integerEnumTargets.length ≤ primary.integerEnums.length ∨
       targets.integerEnumTargets = []) →
     (targets.stringEnumTargets.length ≤ primary.stringEnums.length ∨
       targets.stringEnumTargets = []) →
     parseAllMerge targets primary fallback hasFallback = primary) := by
  refine ⟨?_, ?_, ?_, ?_, ?_, ?_, ?_⟩
  · unfold parseAllMerge
    split
    · dsimp only
      split
      · exact mergedFaithfully_merge _ _
      · exact mergedFaithfully_self _ _
    · exact mergedFaithfully_self _ _
  · unfold parseAllMerge
    split
    · dsimp only
      split
      · exact mergedFaithfully_merge _ _
      · exact mergedFaithfully_self _ _
    · exact mergedFaithfully_self _ _
  · unfold parseAllMerge
    split
    · dsimp only
      split
      · exact mergedFaithfully_merge _ _
      · exact mergedFaithfully_self _ _
    · exact mergedFaithfully_self _ _
  · unfold parseAllMerge
    split
    · dsimp only
      split
      · exact mergedFaithfully_merge _ _
      · exact mergedFaithfully_self _ _
    · exact mergedFaithfully_self _ _
  · intro h
    unfold parseAllMerge
    split
    · dsimp only
      split
      · exact mergeMissing_keys_nodup _ _ h
      · exact h
    · exact h
  · intro h
    unfold parseAllMerge
    split
    · dsimp only
      split
      · exact mergeMissing_keys_nodup _ _ h
      · exact h
    · exact h
  · intro h1 h2 h3 h4
    have f1 : missingCat targets.classTargets.length primary.classes.length = false := by
      unfold missingCat
      rcases h1 with h | h
      · simp only [Bool.and_eq_false_iff]
        right
        simpa using not_lt.mpr h
      · simp [h]
    have f2 : missingCat targets.protocolTargets.length primary.protocols.length = false := by
      unfold missingCat
      rcases h2 with h | h
      · simp only [Bool.and_eq_false_iff]
        right
        simpa using not_lt.mpr h
      · simp [h]
    have f3 : missingCat targets.integerEnumTargets.length primary.integerEnums.length
        = false := by
      unfold missingCat
      rcases h3 with h | h
      · simp only [Bool.and_eq_false_iff]
        right
        simpa using not_lt.mpr h
      · simp [h]
    have f4 : missingCat targets.stringEnumTargets.length primary.stringEnums.length
        = false := by
      unfold missingCat
      rcases h4 with h | h
      · simp only [Bool.and_eq_false_iff]
        right
        simpa using not_lt.mpr h
      · simp [h]
    unfold parseAllMerge
    rw [f1, f2, f3, f4]
    simp

/-- Witness for C3 at the specification's 3-of-5 scenario: the primary
parse finds classes a, b, c of the requested a..e; the fallback contributes
only d and e; a keeps its primary payload although the fallback also
carries an entry named a. -/
theorem c3_fallback_merge_witness :
    lookupTbl (@parseAllMerge Nat Nat Nat Nat Nat
        ⟨["a", "b", "c", "d", "e"], [], [], []⟩
        ⟨[("a", 1), ("b", 2), ("c", 3)], [], [], [], [], []⟩
        ⟨[("a", 9), ("d", 4), ("e", 5)], [], [], [], [], []⟩ true).classes "a" = some 1 ∧
    lookupTbl (@parseAllMerge Nat Nat Nat Nat Nat
        ⟨["a", "b", "c", "d", "e"], [], [], []⟩
        ⟨[("a", 1), ("b", 2), ("c", 3)], [], [], [], [], []⟩
        ⟨[("a", 9), ("d", 4), ("e", 5)], [], [], [], [], []⟩ true).classes "d" = some 4 ∧
    ((@parseAllMerge Nat Nat Nat Nat Nat
        ⟨["a", "b", "c", "d", "e"], [], [], []⟩
        ⟨[("a", 1), ("b", 2), ("c", 3)], [], [], [], [], []⟩
        ⟨[("a", 9), ("d", 4), ("e", 5)], [], [], [], [], []⟩ true).classes.map
          Prod.fst).Nodup := by
  have h := @c3_fallback_merge Nat Nat Nat Nat Nat
    ⟨["a", "b", "c", "d", "e"], [], [], []⟩
    ⟨[("a", 1), ("b", 2), ("c", 3)], [], [], [], [], []⟩
    ⟨[("a", 9), ("d", 4), ("e", 5)], [], [], [], [], []⟩ true
  refine ⟨h.1.1 "a" 1 (by decide), ?_, h.2.2.2.2.1 (by decide)⟩
  rcases h.1.2 "d" 4 (by decide) with hl | ⟨_, hr⟩
  · exact absurd hl (by decide)
  · exact hr

/-! ## C5: known-name sets at resolution time -/

/-- Counterexample to C5 as stated: the known-integer-enum set the Type
Resolution Engine consults is populated from *discovered* names only
(index.ts lines 165-176) and is never narrowed to parsed names, so a
framework whose discovered enum `E` fails to parse (here: a run in which no
integer enum parses at all) still leaves `E` in the set at resolution
time. -/
theorem c5_counterexample :
    ¬ (∀ (fws : List FrameworkNames) (parsedIntegerEnumNames : List String)
        (e : String), memTbl (knownIntegerEnumsAtResolution fws) e = true →
        e ∈ parsedIntegerEnumNames) := by
  intro h
  have := h [⟨"FW", [], [], ["E"], []⟩] [] "E" (by decide)
  simp at this

/-- C5 as amended: after the narrowing of index.ts lines 645-680, the
known-class and known-protocol sets contain exactly the successfully parsed
names whenever every framework of the run is processed (a full run; in
filtered runs the discovered names of non-processed frameworks are kept).
The known-integer-enum and known-string-enum sets are not narrowed at all
and keep every discovered name. -/
theorem c5_known_sets_amended (fws : List FrameworkNames)
    (processed parsedClassNames parsedProtocolNames : List String)
    (hproc : ∀ fw ∈ fws, memTbl processed fw.name = true) :
    knownClassesAtResolution fws processed parsedClassNames = parsedClassNames ∧
    knownProtocolsAtResolution fws processed parsedProtocolNames = parsedProtocolNames := by
  constructor
  · unfold knownClassesAtResolution
    induction fws with
    | nil => rfl
    | cons fw rest ih =>
      rw [List.foldl_cons, hproc fw (List.mem_cons_self _ _)]
      exact ih (fun f hf => hproc f (List.mem_cons_of_mem _ hf))
  · unfold knownProtocolsAtResolution
    induction fws with
    | nil => rfl
    | cons fw rest ih =>
      rw [List.foldl_cons, hproc fw (List.mem_cons_self _ _)]
      exact ih (fun f hf => hproc f (List.mem_cons_of_mem _ hf))

/-- Witness for the amended C5: a full run over one framework whose
discovered class A failed to parse leaves only the parsed name B in the
known-class set. -/
theorem c5_known_sets_amended_witness :
    knownClassesAtResolution [⟨"FW", ["A"], ["P"], [], []⟩] ["FW"] ["B"] = ["B"] ∧
    knownProtocolsAtResolution [⟨"FW", ["A"], ["P"], [], []⟩] ["FW"] ["Q"] = ["Q"] :=
  c5_known_sets_amended [⟨"FW", ["A"], ["P"], [], []⟩] ["FW"] ["B"] ["Q"]
    (by intro fw hfw; simp at hfw; rw [hfw]; decide)

/-! ## C10: nullable wrapping in mapType -/

/-- C10: when a raw type carries a nullability annotation, `mapType` leaves
a resolved base type of `void` unwrapped, and wraps every other resolved
base type in `| null`, parenthesizing function types (those containing
`=>`) first. -/
theorem c10_nullable_wrapping (st : TMState) (fuel : Nat) (q c : String)
    (ret : Bool) (bpn : Option (List String)) (t : String) :
    (isNullableType q = true →
      (mapTypeInnerM st fuel (cleanQualType q) c [] ret bpn).1 = some "void" →
      (mapTypeM st fuel q c ret bpn).1 = some "void") ∧
    (isNullableType q = true →
      (mapTypeInnerM st fuel (cleanQualType q) c [] ret bpn).1 = some t →
      t ≠ "void" →
      (mapTypeM st fuel q c ret bpn).1 =
        some (if hasSubstr t "=>" then "(" ++ t ++ ") | null" else t ++ " | null")) := by
  constructor
  · intro h1 h2
    unfold mapTypeM
    dsimp only
    rw [h2]
    simp
  · intro h1 h2 h3
    unfold mapTypeM
    dsimp only
    rw [h2, h1]
    have hd : decide (t ≠ "void") = true := decide_eq_true h3
    simp only [hd, Bool.true_and, if_true]
    cases hf : hasSubstr t "=>" <;> simp [hf]

/-- Witness for C10 at concrete inputs: `void _Nullable` resolves to plain
`void`; a nullable block type is parenthesized before wrapping; a nullable
object type is wrapped. -/
theorem c10_nullable_wrapping_witness :
    (mapTypeM TMState.empty 5 "void _Nullable" "X" false none).1 = some "void" ∧
    (mapTypeM TMState.empty 5 "void (^)(void) _Nullable" "X" false none).1 =
      some "(() => void) | null" ∧
    (mapTypeM TMState.empty 5 "id _Nullable" "X" false none).1 = some "NobjcObject | null" := by
  refine ⟨?_, ?_, ?_⟩
  · exact (c10_nullable_wrapping TMState.empty 5 "void _Nullable" "X" false none "void").1
      (by decide) (by rfl)
  · have h := (c10_nullable_wrapping TMState.empty 5 "void (^)(void) _Nullable" "X" false none
      "() => void").2 (by decide) (by rfl) (by decide)
    rw [h]
    rfl
  · have h := (c10_nullable_wrapping TMState.empty 5 "id _Nullable" "X" false none
      "NobjcObject").2 (by decide) (by rfl) (by decide)
    rw [h]
    rfl

/-! ## C8: purity and idempotence of the resolution engine -/

theorem protoOrFallback_state (st : TMState) (cleaned : String) (isReturnType : Bool) :
    (protoOrFallback st cleaned isReturnType).2 = st := by
  unfold protoOrFallback
  split
  · try dsimp only
    split
    · rfl
    · try dsimp only
      split
      · rfl
      · rfl
  · split
    · rfl
    · rfl

theorem tmRun_state : ∀ (fuel : Nat) (call : TMCall) (st : TMState),
    (tmRun st fuel call).2 = st := by
  intro fuel
  induction fuel with
  | zero => intro call st; rfl
  | succ f ih =>
    intro call st
    match call with
    | .inner cleaned containing resolving isRet bpn =>
      simp only [tmRun]
      cases hdm : lookupTbl DIRECT_MAPPINGS cleaned with
      | some v => simp [hdm]
      | none =>
      simp only [hdm]
      by_cases h2 : memTbl NUMERIC_TYPES cleaned = true
      · rw [if_pos h2]
      · rw [if_neg h2]
        by_cases h3 : memTbl GENERIC_TYPE_PARAMS cleaned = true
        · rw [if_pos h3]
        · rw [if_neg h3]
          by_cases h4 : (decide (cleaned = "instancetype") ||
              decide (cleaned = "instancetype _Nonnull") ||
              decide (cleaned = "instancetype _Nullable")) = true
          · rw [if_pos h4]
          · rw [if_neg h4]
            cases hsm : lookupTbl st.structTypeMap cleaned with
            | some v => simp [hsm]
            | none =>
            simp only [hsm]
            by_cases h6 : hasSubstr cleaned "(^" = true
            · rw [if_pos h6]
              exact ih _ _
            · rw [if_neg h6]
              by_cases h7 : hasSubstr cleaned "Block_" = true
              · rw [if_pos h7]
              · rw [if_neg h7]
                by_cases h8 : (hasSubstr cleaned "(*)" || hasSubstr cleaned "(*") = true
                · rw [if_pos h8]
                · rw [if_neg h8]
                  by_cases h9 : matchPtrPtr cleaned.data = true
                  · rw [if_pos h9]
                  · rw [if_neg h9]
                    by_cases h10 : (decide (cleaned = "void *") ||
                        decide (cleaned = "const void *")) = true
                    · rw [if_pos h10]
                    · rw [if_neg h10]
                      cases hec : extractClassName cleaned with
                      | some className =>
                        simp only [hec]
                        split
                        · rfl
                        · split
                          · rfl
                          · rfl
                      | none =>
                      simp only [hec]
                      by_cases h12 : memTbl st.knownIntegerEnums cleaned = true
                      · rw [if_pos h12]
                      · rw [if_neg h12]
                        by_cases h13 : memTbl st.knownStringEnums cleaned = true
                        · rw [if_pos h13]
                        · rw [if_neg h13]
                          cases htd : lookupTbl st.knownTypedefs cleaned with
                          | some underlying =>
                            simp only [htd]
                            by_cases h14 : cleaned ∈ resolving
                            · rw [if_pos h14]
                              exact protoOrFallback_state st cleaned isRet
                            · rw [if_neg h14]
                              exact ih _ _
                          | none =>
                            simp only [htd]
                            exact protoOrFallback_state st cleaned isRet
    | .blockTy cleaned containing bpn =>
      simp only [tmRun]
      repeat' split
      all_goals try dsimp only
      all_goals
        first
        | rfl
        | exact ih _ _
        | (rw [ih]; exact ih _ _)
    | .params ps containing bpn idx =>
      simp only [tmRun]
      repeat' split
      all_goals try dsimp only
      all_goals
        first
        | rfl
        | exact ih _ _
        | (rw [ih]; exact ih _ _)

theorem mapTypeInnerM_state (st : TMState) (fuel : Nat) (cleaned containing : String)
    (resolving : List String) (isReturnType : Bool) (bpn : Option (List String)) :
    (mapTypeInnerM st fuel cleaned containing resolving isReturnType bpn).2 = st := by
  unfold mapTypeInnerM
  have h := tmRun_state fuel (.inner cleaned containing resolving isReturnType bpn) st
  split
  all_goals rename_i heq
  all_goals rw [heq] at h
  all_goals exact h

theorem mapTypeM_state (st : TMState) (fuel : Nat) (q c : String) (ret : Bool)
    (bpn : Option (List String)) : (mapTypeM st fuel q c ret bpn).2 = st := by
  unfold mapTypeM
  have h := mapTypeInnerM_state st fuel (cleanQualType q) c [] ret bpn
  dsimp only
  split
  · exact h
  · split
    · split
      · exact h
      · exact h
    · exact h

/-- C8: the type resolution engine is pure in the shared tables — a call
leaves the table state it was given unchanged, and calling it a second
time starting from the state the first call returned yields the identical
result (output and state). -/
theorem c8_resolution_pure (st : TMState) (fuel : Nat) (q c : String) (ret : Bool)
    (bpn : Option (List String)) :
    (mapTypeM st fuel q c ret bpn).2 = st ∧
    mapTypeM (mapTypeM st fuel q c ret bpn).2 fuel q c ret bpn =
      mapTypeM st fuel q c ret bpn := by
  have h := mapTypeM_state st fuel q c ret bpn
  exact ⟨h, by rw [h]⟩

/-! ## C7: termination of type resolution -/

theorem cycBlock_step (h : Nat) (c : String) :
    tmRun cycBlockSt (h + 3) (.inner "A" c [] false none) =
      tmRun cycBlockSt (h + 1) (.blockTy "A (^)(void)" c none) := rfl

theorem cycBlock_blockTy (h : Nat) (c : String) :
    tmRun cycBlockSt (h + 1) (.blockTy "A (^)(void)" c none) =
      ((fun retRes =>
        match retRes.1 with
        | some (TMVal.str tsReturn) => (some (TMVal.str ("() => " ++ tsReturn)), retRes.2)
        | _ => ((none : Option TMVal), retRes.2))
       (tmRun cycBlockSt h (.inner "A" c [] false none))) := rfl

theorem cycBlock_diverges : ∀ (fuel : Nat) (c : String),
    (tmRun cycBlockSt fuel (.inner "A" c [] false none)).1 = none := by
  intro fuel
  induction fuel using Nat.strong_induction_on with
  | _ fuel ih =>
    match fuel with
    | 0 => intro c; rfl
    | 1 => intro c; rfl
    | 2 => intro c; rfl
    | (h + 3) =>
      intro c
      rw [cycBlock_step h c, cycBlock_blockTy h c]
      have hh := ih h (by omega) c
      simp [hh]

/-- C7 (code bug): `mapTypeInner` does not terminate on every table state —
for the typedef table binding `A` to the block type `A (^)(void)`, resolving
`A` re-enters typedef resolution through `parseBlockType` with a fresh
visited set and recurses forever (the fuel-indexed embedding yields no
result for any amount of fuel); the visited-set guard does work for plain
typedef cycles, so the specification's `A -> B -> A` chain resolves to the
opaque fallback as claimed. -/
theorem c7_typedef_cycle_termination :
    (∀ (fuel : Nat) (containing : String),
      (mapTypeInnerM cycBlockSt fuel "A" containing [] false none).1 = none) ∧
    (∀ (containing : String) (isRet : Bool),
      (mapTypeInnerM abaSt 3 "A" containing [] isRet none).1 = some "NobjcObject") := by
  constructor
  · intro fuel containing
    have h := cycBlock_diverges fuel containing
    unfold mapTypeInnerM
    split
    all_goals rename_i heq
    · rename_i s st2
      rw [heq] at h
      simp at h
    · rfl
    · rfl
  · intro containing isRet
    rfl

/-! ## C1: protocol-existential resolution of `id<P>` -/

theorem isPreL_subset : ∀ (pat cs : List Char), isPreL pat cs = true → ∀ c ∈ pat, c ∈ cs := by
  intro pat
  induction pat with
  | nil => intro cs _ c hc; exact absurd hc (List.not_mem_nil c)
  | cons p ps ih =>
    intro cs h c hc
    cases cs with
    | nil => exact absurd h (by simp [isPreL])
    | cons d ds =>
      simp only [isPreL] at h
      split at h
      · rename_i hpd
        rcases List.mem_cons.mp hc with h1 | h1
        · subst h1; rw [hpd]; exact List.mem_cons_self _ _
        · exact List.mem_cons_of_mem _ (ih ds h c h1)
      · exact absurd h (by decide)

theorem hasSubL_subset (pat : List Char) :
    ∀ (cs : List Char), hasSubL pat cs = true → ∀ c ∈ pat, c ∈ cs := by
  intro cs
  induction cs with
  | nil => intro h c hc; exact isPreL_subset pat [] h c hc
  | cons d ds ih =>
    intro h c hc
    rw [hasSubL, Bool.or_eq_true] at h
    rcases h with h | h
    · exact isPreL_subset pat (d :: ds) h c hc
    · exact List.mem_cons_of_mem _ (ih h c hc)

theorem hasSubstr_of_missing_char (s pat : String) (c : Char) (hc : c ∈ pat.data)
    (hs : c ∉ s.data) : hasSubstr s pat = false := by
  cases h : hasSubstr s pat with
  | false => rfl
  | true => exact absurd (hasSubL_subset pat.data s.data h c hc) hs

theorem lookupTbl_none_of_char {α : Type} (l : List (String × α)) (s : String) (c : Char)
    (hs : c ∈ s.data)
    (hl : l.all (fun e => !(decide (c ∈ e.1.data))) = true) :
    lookupTbl l s = none := by
  induction l with
  | nil => rfl
  | cons e es ih =>
    rw [List.all_cons, Bool.and_eq_true] at hl
    obtain ⟨he, hes⟩ := hl
    obtain ⟨k, v⟩ := e
    have hne : ¬(k = s) := by
      intro hh
      rw [Bool.not_eq_true', decide_eq_false_iff_not] at he
      exact he (by rw [hh]; exact hs)
    simp only [lookupTbl]
    rw [if_neg hne]
    exact ih hes

theorem memTbl_false_of_char (l : List String) (s : String) (c : Char)
    (hs : c ∈ s.data)
    (hl : l.all (fun e => !(decide (c ∈ e.data))) = true) :
    memTbl l s = false := by
  induction l with
  | nil => rfl
  | cons k es ih =>
    rw [List.all_cons, Bool.and_eq_true] at hl
    obtain ⟨he, hes⟩ := hl
    have hne : ¬(k = s) := by
      intro hh
      rw [Bool.not_eq_true', decide_eq_false_iff_not] at he
      exact he (by rw [hh]; exact hs)
    simp only [memTbl]
    rw [if_neg hne]
    exact ih hes

theorem ne_of_char (s t : String) (c : Char) (hs : c ∈ s.data) (ht : c ∉ t.data) :
    s ≠ t :=
  fun h => ht (by rw [← h]; exact hs)

theorem alphaName_all (P : String) (hP : isAlphaName P = true) :
    ∀ c ∈ P.data, c.isAlpha = true := by
  unfold isAlphaName at hP
  rw [Bool.and_eq_true] at hP
  have h2 := hP.2
  rw [List.all_eq_true] at h2
  intro c hc
  exact h2 c hc

theorem alphaName_ne_nil (P : String) (hP : isAlphaName P = true) : P.data ≠ [] := by
  unfold isAlphaName at hP
  rw [Bool.and_eq_true] at hP
  intro h
  rw [h] at hP
  exact absurd hP.1 (by decide)

theorem idproto_data (P : String) :
    ("id<" ++ P ++ ">").data = 'i' :: 'd' :: '<' :: (P.data ++ ['>']) := rfl

theorem idproto_not_mem (P : String) (hP : isAlphaName P = true) (c : Char)
    (hc : c.isAlpha = false) (h1 : c ≠ 'i') (h2 : c ≠ 'd') (h3 : c ≠ '<')
    (h4 : c ≠ '>') : c ∉ ("id<" ++ P ++ ">").data := by
  rw [idproto_data]
  intro hmem
  rcases List.mem_cons.mp hmem with h | hmem
  · exact h1 h
  rcases List.mem_cons.mp hmem with h | hmem
  · exact h2 h
  rcases List.mem_cons.mp hmem with h | hmem
  · exact h3 h
  rcases List.mem_append.mp hmem with h | h
  · have := alphaName_all P hP c h
    rw [hc] at this
    exact absurd this (by decide)
  · exact h4 (List.mem_singleton.mp h)

theorem ptrPtrAt_star (cs : List Char) (h : ptrPtrAt cs = true) : '*' ∈ cs := by
  unfold ptrPtrAt at h
  dsimp only at h
  split at h
  · exact absurd h (by decide)
  · split at h
    · rename_i r2 heq
      have hx : '*' ∈ (cs.drop (cs.takeWhile isWordChar).length).dropWhile isWsChar := by
        rw [heq]; exact List.mem_cons_self _ _
      exact (List.drop_subset _ _) ((List.dropWhile_subset _) hx)
    · exact absurd h (by decide)

theorem matchPtrPtr_star : ∀ (cs : List Char), matchPtrPtr cs = true → '*' ∈ cs := by
  intro cs
  induction cs with
  | nil => intro h; exact absurd h (by decide)
  | cons c rest ih =>
    intro h
    rw [matchPtrPtr, Bool.or_eq_true] at h
    rcases h with h | h
    · exact ptrPtrAt_star _ h
    · exact List.mem_cons_of_mem _ (ih h)

theorem isStarEnd_star (cs : List Char) (h : isStarEnd cs = true) : '*' ∈ cs := by
  unfold isStarEnd at h
  rw [decide_eq_true_eq] at h
  have hx : '*' ∈ cs.dropWhile isWsChar := by
    rw [h]; exact List.mem_singleton_self _
  exact (List.dropWhile_subset _) hx

theorem afterLastGt_subset (cs t : List Char) (h : afterLastGt cs = some t) : t ⊆ cs := by
  unfold afterLastGt at h
  split at h
  · injection h with h
    subst h
    intro x hx
    rw [List.mem_reverse] at hx
    have h2 := (List.takeWhile_subset _) hx
    rw [List.mem_reverse] at h2
    exact h2
  · cases h

theorem ecnCore_no_star (cs : List Char) (h : '*' ∉ cs) : ecnCore cs = none := by
  have hrest : ((cs.drop (cs.takeWhile isWordChar).length).dropWhile isWsChar) ⊆ cs :=
    fun x hx => (List.drop_subset _ _) ((List.dropWhile_subset _) hx)
  unfold ecnCore
  dsimp only
  split
  · rfl
  · split
    · split
      · rename_i t hgt
        split
        · rfl
        · split
          · rename_i hst
            exact (h (hrest ((afterLastGt_subset _ _ hgt) (isStarEnd_star _ hst)))).elim
          · rfl
      · rfl
    · split
      · rename_i hst
        exact (h (hrest (isStarEnd_star _ hst))).elim
      · rfl

theorem extractClassName_no_star (s : String) (h : '*' ∉ s.data) :
    extractClassName s = none := by
  unfold extractClassName
  split
  · rename_i c rest heq
    split
    · have hsub : '*' ∉ (c :: rest).dropWhile isWsChar := by
        intro hx
        apply h
        rw [heq]
        have hm := (List.dropWhile_subset _) hx
        simp only [List.mem_cons] at hm ⊢
        rcases hm with h2 | h2
        · exact Or.inr (Or.inr (Or.inr (Or.inr (Or.inr (Or.inl h2)))))
        · exact Or.inr (Or.inr (Or.inr (Or.inr (Or.inr (Or.inr h2)))))
      rw [ecnCore_no_star _ hsub, ecnCore_no_star _ h]
    · exact ecnCore_no_star _ h
  · exact ecnCore_no_star _ h

theorem protoCapture_idproto (P : String) (hne : P.data ≠ []) (hnl : '\n' ∉ P.data) :
    protoCapture ("id<" ++ P ++ ">") = some P := by
  unfold protoCapture
  split
  · rename_i rest heq
    have h2 : 'i' :: 'd' :: '<' :: (P.data ++ ['>']) = 'i' :: 'd' :: '<' :: rest := by
      rw [← idproto_data]; exact heq
    have h3 : P.data ++ ['>'] = rest := by
      injection h2 with _ h2
      injection h2 with _ h2
      injection h2 with _ h2
    subst h3
    rw [List.getLast?_concat]
    show (if (P.data ++ ['>']).dropLast.isEmpty then none
          else if '\n' ∈ (P.data ++ ['>']).dropLast then none
          else some (⟨(P.data ++ ['>']).dropLast⟩ : String)) = some P
    rw [List.dropLast_concat]
    rw [if_neg (by simp [List.isEmpty_iff, hne])]
    rw [if_neg hnl]
  · rename_i hno
    exact (hno (P.data ++ ['>']) (idproto_data P)).elim

theorem scwGo_no_comma : ∀ (cs : List Char), ',' ∉ cs → scwGo false cs = [cs] := by
  intro cs
  induction cs with
  | nil => intro _; rfl
  | cons c rest ih =>
    intro h
    have hc : ¬(c = ',') := fun hh => h (by rw [← hh]; exact List.mem_cons_self _ _)
    have hr : ',' ∉ rest := fun hh => h (List.mem_cons_of_mem _ hh)
    simp only [scwGo]
    rw [if_neg (by simp)]
    rw [if_neg hc]
    rw [ih hr]

theorem splitCommaWs_no_comma (cs : List Char) (h : ',' ∉ cs) :
    splitCommaWs cs = [cs] := scwGo_no_comma cs h

theorem interc_dedup_one (x : String) :
    String.intercalate " | " (dedupFirst [] [x]) = x := rfl

theorem pof_step (st : TMState) (P : String) (isRet : Bool)
    (hP : isAlphaName P = true) :
    protoOrFallback st ("id<" ++ P ++ ">") isRet = pofBody st P isRet := by
  have hnl : '\n' ∉ P.data := fun h =>
    absurd (alphaName_all P hP '\n' h) (by decide)
  have hcm : ',' ∉ P.data := fun h =>
    absurd (alphaName_all P hP ',' h) (by decide)
  have hcap := protoCapture_idproto P (alphaName_ne_nil P hP) hnl
  unfold protoOrFallback
  rw [hcap]
  show (let protoNames : List String := (splitCommaWs P.data).map (fun l => ⟨l⟩)
        let expanded : Option String :=
          if isRet && protoNames.length = 1 then
            match protoNames with
            | protoName :: _ =>
              match lookupTbl st.protocolConformers protoName with
              | some conformers =>
                if conformers.length > 0 && conformers.length ≤ 30 then
                  some (String.intercalate " | "
                    ((sortStrs conformers).map (fun c => "_" ++ c)))
                else none
              | none => none
            | [] => none
          else none
        match expanded with
        | some u => (some u, st)
        | none =>
          let unionParts := protoNames.foldr
            (fun protoName acc =>
              if memTbl st.knownProtocols protoName then ("_" ++ protoName) :: acc
              else if memTbl st.knownClasses protoName then ("_" ++ protoName) :: acc
              else acc) []
          if unionParts.isEmpty then (some "NobjcObject", st)
          else (some (String.intercalate " | " (dedupFirst [] unionParts)), st)) =
      pofBody st P isRet
  rw [splitCommaWs_no_comma P.data hcm]
  rfl

theorem pofBody_conf (st : TMState) (P : String) (conf : List String)
    (hc : lookupTbl st.protocolConformers P = some conf)
    (h0 : 0 < conf.length) (h30 : conf.length ≤ 30) :
    pofBody st P true =
      (some (String.intercalate " | " ((sortStrs conf).map (fun c => "_" ++ c))), st) := by
  have hif : (if (conf.length > 0 && conf.length ≤ 30) = true then
        some (String.intercalate " | " ((sortStrs conf).map (fun c => "_" ++ c)))
      else (none : Option String)) =
      some (String.intercalate " | " ((sortStrs conf).map (fun c => "_" ++ c))) := by
    rw [if_pos]
    rw [Bool.and_eq_true, decide_eq_true_eq, decide_eq_true_eq]
    exact ⟨h0, h30⟩
  unfold pofBody
  dsimp only
  rw [if_pos (by rfl)]
  simp only [hc]
  rw [hif]

theorem pofBody_param (st : TMState) (P : String)
    (hkp : memTbl st.knownProtocols P = true) :
    pofBody st P false = (some ("_" ++ P), st) := by
  unfold pofBody
  dsimp only
  rw [if_neg (by simp)]
  show (let unionParts := ([P] : List String).foldr
          (fun protoName acc =>
            if memTbl st.knownProtocols protoName then ("_" ++ protoName) :: acc
            else if memTbl st.knownClasses protoName then ("_" ++ protoName) :: acc
            else acc) []
        if unionParts.isEmpty then (some "NobjcObject", st)
        else (some (String.intercalate " | " (dedupFirst [] unionParts)), st)) =
      ((some ("_" ++ P), st) : Option String × TMState)
  dsimp only [List.foldr]
  rw [hkp]
  rw [if_pos rfl]
  rw [if_neg (by simp)]
  rw [interc_dedup_one]

theorem pofBody_ret_union (st : TMState) (P : String)
    (hkp : memTbl st.knownProtocols P = true)
    (hno : (match lookupTbl st.protocolConformers P with
            | some conf => ¬(conf.length > 0 && conf.length ≤ 30) = true
            | none => True)) :
    pofBody st P true = (some ("_" ++ P), st) := by
  have hexp : (match lookupTbl st.protocolConformers P with
               | some conformers =>
                 if conformers.length > 0 && conformers.length ≤ 30 then
                   some (String.intercalate " | "
                     ((sortStrs conformers).map (fun c => "_" ++ c)))
                 else none
               | none => none) = (none : Option String) := by
    cases hl : lookupTbl st.protocolConformers P with
    | some conf =>
      rw [hl] at hno
      have hno2 : ¬((conf.length > 0 && conf.length ≤ 30) = true) := hno
      show (if (conf.length > 0 && conf.length ≤ 30) = true then
              some (String.intercalate " | "
                ((sortStrs conf).map (fun c => "_" ++ c)))
            else (none : Option String)) = none
      rw [if_neg hno2]
    | none => rfl
  unfold pofBody
  dsimp only
  rw [if_pos (by rfl)]
  simp only [hexp]
  show (let unionParts := ([P] : List String).foldr
          (fun protoName acc =>
            if memTbl st.knownProtocols protoName then ("_" ++ protoName) :: acc
            else if memTbl st.knownClasses protoName then ("_" ++ protoName) :: acc
            else acc) []
        if unionParts.isEmpty then (some "NobjcObject", st)
        else (some (String.intercalate " | " (dedupFirst [] unionParts)), st)) =
      ((some ("_" ++ P), st) : Option String × TMState)
  dsimp only [List.foldr]
  rw [hkp]
  rw [if_pos rfl]
  rw [if_neg (by simp)]
  rw [interc_dedup_one]

theorem c1_reduces (st : TMState) (fuel : Nat) (P containing : String)
    (resolving : List String) (isRet : Bool) (bpn : Option (List String))
    (hP : isAlphaName P = true)
    (hsm : lookupTbl st.structTypeMap ("id<" ++ P ++ ">") = none)
    (h12 : memTbl st.knownIntegerEnums ("id<" ++ P ++ ">") = false)
    (h13 : memTbl st.knownStringEnums ("id<" ++ P ++ ">") = false)
    (htd : lookupTbl st.knownTypedefs ("id<" ++ P ++ ">") = none) :
    mapTypeInnerM st (fuel + 1) ("id<" ++ P ++ ">") containing resolving isRet bpn =
      protoOrFallback st ("id<" ++ P ++ ">") isRet := by
  have hlt : '<' ∈ ("id<" ++ P ++ ">").data := by
    rw [idproto_data]
    exact List.mem_cons_of_mem _ (List.mem_cons_of_mem _ (List.mem_cons_self _ _))
  have hparen : '(' ∉ ("id<" ++ P ++ ">").data :=
    idproto_not_mem P hP '(' (by decide) (by decide) (by decide) (by decide) (by decide)
  have hund : '_' ∉ ("id<" ++ P ++ ">").data :=
    idproto_not_mem P hP '_' (by decide) (by decide) (by decide) (by decide) (by decide)
  have hstar : '*' ∉ ("id<" ++ P ++ ">").data :=
    idproto_not_mem P hP '*' (by decide) (by decide) (by decide) (by decide) (by decide)
  have hdm : lookupTbl DIRECT_MAPPINGS ("id<" ++ P ++ ">") = none :=
    lookupTbl_none_of_char _ _ '<' hlt (by decide)
  have h2 : memTbl NUMERIC_TYPES ("id<" ++ P ++ ">") = false :=
    memTbl_false_of_char _ _ '<' hlt (by decide)
  have h3 : memTbl GENERIC_TYPE_PARAMS ("id<" ++ P ++ ">") = false :=
    memTbl_false_of_char _ _ '<' hlt (by decide)
  have hni1 : ("id<" ++ P ++ ">") ≠ "instancetype" := ne_of_char _ _ '<' hlt (by decide)
  have hni2 : ("id<" ++ P ++ ">") ≠ "instancetype _Nonnull" :=
    ne_of_char _ _ '<' hlt (by decide)
  have hni3 : ("id<" ++ P ++ ">") ≠ "instancetype _Nullable" :=
    ne_of_char _ _ '<' hlt (by decide)
  have h6 : hasSubstr ("id<" ++ P ++ ">") "(^" = false :=
    hasSubstr_of_missing_char _ _ '(' (by decide) hparen
  have h7 : hasSubstr ("id<" ++ P ++ ">") "Block_" = false :=
    hasSubstr_of_missing_char _ _ '_' (by decide) hund
  have h8a : hasSubstr ("id<" ++ P ++ ">") "(*)" = false :=
    hasSubstr_of_missing_char _ _ '(' (by decide) hparen
  have h8b : hasSubstr ("id<" ++ P ++ ">") "(*" = false :=
    hasSubstr_of_missing_char _ _ '(' (by decide) hparen
  have h9 : matchPtrPtr ("id<" ++ P ++ ">").data = false := by
    cases h : matchPtrPtr ("id<" ++ P ++ ">").data with
    | false => rfl
    | true => exact absurd (matchPtrPtr_star _ h) hstar
  have hni4 : ("id<" ++ P ++ ">") ≠ "void *" := ne_of_char _ _ '<' hlt (by decide)
  have hni5 : ("id<" ++ P ++ ">") ≠ "const void *" := ne_of_char _ _ '<' hlt (by decide)
  have hec : extractClassName ("id<" ++ P ++ ">") = none := extractClassName_no_star _ hstar
  have hrun : tmRun st (fuel + 1)
      (.inner ("id<" ++ P ++ ">") containing resolving isRet bpn) =
      (match protoOrFallback st ("id<" ++ P ++ ">") isRet with
       | (o, st2) => (o.map TMVal.str, st2)) := by
    simp only [tmRun, hdm]
    rw [if_neg (by simp only [h2]; decide)]
    rw [if_neg (by simp only [h3]; decide)]
    rw [if_neg (by
      intro hx
      rw [Bool.or_eq_true, Bool.or_eq_true, decide_eq_true_eq, decide_eq_true_eq,
        decide_eq_true_eq] at hx
      rcases hx with (hx | hx) | hx
      · exact hni1 hx
      · exact hni2 hx
      · exact hni3 hx)]
    simp only [hsm]
    rw [if_neg (by simp only [h6]; decide)]
    rw [if_neg (by simp only [h7]; decide)]
    rw [if_neg (by simp only [h8a, h8b]; decide)]
    rw [if_neg (by simp only [h9]; decide)]
    rw [if_neg (by
      intro hx
      rw [Bool.or_eq_true, decide_eq_true_eq, decide_eq_true_eq] at hx
      rcases hx with hx | hx
      · exact hni4 hx
      · exact hni5 hx)]
    simp only [hec]
    rw [if_neg (by simp only [h12]; decide)]
    rw [if_neg (by simp only [h13]; decide)]
    simp only [htd]
  unfold mapTypeInnerM
  rw [hrun]
  cases hpf : protoOrFallback st ("id<" ++ P ++ ">") isRet with
  | mk o st2 =>
    have hst : st2 = st := by
      have hh := protoOrFallback_state st ("id<" ++ P ++ ">") isRet
      rw [hpf] at hh
      exact hh
    subst hst
    cases o with
    | none => rfl
    | some u => rfl

/-- C1: for a raw type `id<P>` with a single protocol name `P` (and a table
state that gives none of the earlier resolution rules a match on the raw
string), the resolution engine resolves as follows.  In return position,
when the conformer map assigns `P` a non-empty list of at most 30
conformers, the result is the sorted union of the conformers' concrete
class types (each prefixed `_`, joined by `|`).  In parameter position —
and in return position when the conformer map has no entry or more than 30
conformers for `P` — the result is the protocol's own interface type
`_P`. -/
theorem c1_protocol_existential_resolution (st : TMState) (fuel : Nat)
    (P containing : String) (resolving : List String) (bpn : Option (List String))
    (hP : isAlphaName P = true)
    (hsm : lookupTbl st.structTypeMap ("id<" ++ P ++ ">") = none)
    (hie : memTbl st.knownIntegerEnums ("id<" ++ P ++ ">") = false)
    (hse : memTbl st.knownStringEnums ("id<" ++ P ++ ">") = false)
    (htd : lookupTbl st.knownTypedefs ("id<" ++ P ++ ">") = none) :
    (∀ conf, lookupTbl st.protocolConformers P = some conf →
       0 < conf.length → conf.length ≤ 30 →
       mapTypeInnerM st (fuel + 1) ("id<" ++ P ++ ">") containing resolving true bpn =
         (some (String.intercalate " | " ((sortStrs conf).map (fun c => "_" ++ c))), st)) ∧
    (memTbl st.knownProtocols P = true →
       mapTypeInnerM st (fuel + 1) ("id<" ++ P ++ ">") containing resolving false bpn =
         (some ("_" ++ P), st)) ∧
    (memTbl st.knownProtocols P = true →
       lookupTbl st.protocolConformers P = none →
       mapTypeInnerM st (fuel + 1) ("id<" ++ P ++ ">") containing resolving true bpn =
         (some ("_" ++ P), st)) ∧
    (∀ conf, memTbl st.knownProtocols P = true →
       lookupTbl st.protocolConformers P = some conf → 30 < conf.length →
       mapTypeInnerM st (fuel + 1) ("id<" ++ P ++ ">") containing resolving true bpn =
         (some ("_" ++ P), st)) := by
  refine ⟨?_, ?_, ?_, ?_⟩
  · intro conf hc h0 h30
    rw [c1_reduces st fuel P containing resolving true bpn hP hsm hie hse htd]
    rw [pof_step st P true hP]
    exact pofBody_conf st P conf hc h0 h30
  · intro hkp
    rw [c1_reduces st fuel P containing resolving false bpn hP hsm hie hse htd]
    rw [pof_step st P false hP]
    exact pofBody_param st P hkp
  · intro hkp hc
    rw [c1_reduces st fuel P containing resolving true bpn hP hsm hie hse htd]
    rw [pof_step st P true hP]
    refine pofBody_ret_union st P hkp ?_
    rw [hc]
    exact trivial
  · intro conf hkp hc hbig
    rw [c1_reduces st fuel P containing resolving true bpn hP hsm hie hse htd]
    rw [pof_step st P true hP]
    refine pofBody_ret_union st P hkp ?_
    rw [hc]
    show ¬((conf.length > 0 && conf.length ≤ 30) = true)
    rw [Bool.and_eq_true, decide_eq_true_eq, decide_eq_true_eq]
    intro hx
    omega

/-- C1 witness: the specification's end-to-end scenario.  With protocol
`Credential` and known conformers `C`, `A`, the raw type `id<Credential>`
resolves in return position to the sorted union `_A | _C` and in parameter
position to the protocol's own interface type `_Credential`. -/
theorem c1_protocol_existential_resolution_witness :
    mapTypeInnerM credSt 1 "id<Credential>" "NSURLSession" [] true none =
      (some "_A | _C", credSt) ∧
    mapTypeInnerM credSt 1 "id<Credential>" "NSURLSession" [] false none =
      (some "_Credential", credSt) := by
  have h := c1_protocol_existential_resolution credSt 0 "Credential" "NSURLSession" [] none
    (by decide) rfl rfl rfl rfl
  have h1 := h.1 ["C", "A"] rfl (by decide) (by decide)
  have h2 := h.2.1 rfl
  constructor
  · show mapTypeInnerM credSt (0 + 1) ("id<" ++ "Credential" ++ ">") "NSURLSession" []
      true none =
      (some (String.intercalate " | " ((sortStrs ["C", "A"]).map (fun c => "_" ++ c))), credSt)
    exact h1
  · show mapTypeInnerM credSt (0 + 1) ("id<" ++ "Credential" ++ ">") "NSURLSession" []
      false none = (some ("_" ++ "Credential"), credSt)
    exact h2

/-! ## C2: transitive conformance closure -/

theorem countNotIn_cons_left (u : String) (U v : List String) :
    countNotIn (u :: U) v = (if u ∈ v then 0 else 1) + countNotIn U v := by
  unfold countNotIn
  rw [List.filter_cons]
  by_cases h : u ∈ v
  · rw [if_pos h, if_neg (by simp [h])]
    omega
  · rw [if_pos (by simp [h]), if_neg h, List.length_cons]
    omega

theorem countNotIn_mono (U v vbig : List String) (h : v ⊆ vbig) :
    countNotIn U vbig ≤ countNotIn U v := by
  induction U with
  | nil => exact Nat.le_refl _
  | cons u U ih =>
    rw [countNotIn_cons_left, countNotIn_cons_left]
    by_cases hu : u ∈ v
    · rw [if_pos hu, if_pos (h hu)]
      omega
    · by_cases hu2 : u ∈ vbig
      · rw [if_neg hu, if_pos hu2]; omega
      · rw [if_neg hu, if_neg hu2]; omega

theorem countNotIn_insert_lt (U v : List String) (p : String) (hU : p ∈ U)
    (hv : p ∉ v) : countNotIn U (p :: v) < countNotIn U v := by
  induction U with
  | nil => cases hU
  | cons u U ih =>
    rw [countNotIn_cons_left, countNotIn_cons_left]
    rcases List.mem_cons.mp hU with h | h
    · subst h
      rw [if_pos (List.mem_cons_self _ _), if_neg hv]
      have := countNotIn_mono U v (p :: v) (fun x hx => List.mem_cons_of_mem _ hx)
      omega
    · by_cases h1 : u ∈ (p :: v)
      · rw [if_pos h1]
        by_cases h2 : u ∈ v
        · rw [if_pos h2]; have := ih h; omega
        · rw [if_neg h2]; have := ih h; omega
      · have h2 : u ∉ v := fun hh => h1 (List.mem_cons_of_mem _ hh)
        rw [if_neg h1, if_neg h2]; have := ih h; omega

theorem gtpp_succ (prot : List (String × List String)) (f : Nat) (p : String)
    (v : List String) :
    gtpp prot (f + 1) p v =
      (if p ∈ v then ([], v)
       else match lookupTbl prot p with
         | none => ([], p :: v)
         | some parents => gtppList prot f parents (p :: v)) := by
  unfold gtpp
  rfl

theorem gtppList_nil (prot : List (String × List String)) (f : Nat)
    (v : List String) : gtppList prot f [] v = ([], v) := by
  unfold gtppList
  rfl

theorem gtppList_cons (prot : List (String × List String)) (f : Nat)
    (q : String) (rest v : List String) :
    gtppList prot f (q :: rest) v =
      (q :: ((gtpp prot f q v).1 ++ (gtppList prot f rest (gtpp prot f q v).2).1),
       (gtppList prot f rest (gtpp prot f q v).2).2) := by
  conv_lhs => rw [gtppList]


theorem keys_subset_protoUniverse (prot : List (String × List String))
    (p : String) (ps : List String) (h : lookupTbl prot p = some ps) :
    p ∈ protoUniverse prot := by
  unfold protoUniverse
  exact List.mem_append_left _ (List.mem_map_of_mem Prod.fst (lookupTbl_mem prot p ps h))

theorem gtppList_spec_of (prot : List (String × List String)) (f : Nat)
    (hA : ∀ p v, countNotIn (protoUniverse prot) v + 1 ≤ f → GtppSpec prot f p v) :
    ∀ (parents v : List String), countNotIn (protoUniverse prot) v + 1 ≤ f →
      GtppListSpec prot f parents v := by
  intro parents
  induction parents with
  | nil =>
    intro v _
    unfold GtppListSpec
    rw [gtppList_nil]
    refine ⟨fun x hx => hx, ?_, ?_⟩
    · intro q hq; cases hq
    · intro u hu hnu _ _ _ _; exact absurd hu hnu
  | cons q rest ih =>
    intro v hs
    obtain ⟨h1a, h1b, h1d⟩ := hA q v hs
    have hs2 : countNotIn (protoUniverse prot) (gtpp prot f q v).2 + 1 ≤ f :=
      Nat.le_trans (Nat.add_le_add_right (countNotIn_mono _ _ _ h1a) 1) hs
    obtain ⟨h2a, h2b, h2d⟩ := ih (gtpp prot f q v).2 hs2
    unfold GtppListSpec
    rw [gtppList_cons]
    dsimp only
    refine ⟨fun x hx => h2a (h1a hx), ?_, ?_⟩
    · intro x hx
      rcases List.mem_cons.mp hx with h | h
      · subst h
        exact ⟨List.mem_cons_self _ _, h2a (h1b)⟩
      · obtain ⟨hr, hv⟩ := h2b x h
        exact ⟨List.mem_cons_of_mem _ (List.mem_append_right _ hr), hv⟩
    · intro u hu hnu ps hps x hx
      by_cases hu1 : u ∈ (gtpp prot f q v).2
      · obtain ⟨hr, hv⟩ := h1d u hu1 hnu ps hps x hx
        exact ⟨List.mem_cons_of_mem _ (List.mem_append_left _ hr), h2a hv⟩
      · obtain ⟨hr, hv⟩ := h2d u hu hu1 ps hps x hx
        exact ⟨List.mem_cons_of_mem _ (List.mem_append_right _ hr), hv⟩

theorem gtpp_spec (prot : List (String × List String)) :
    ∀ (fuel : Nat) (p : String) (v : List String),
      countNotIn (protoUniverse prot) v + 1 ≤ fuel → GtppSpec prot fuel p v := by
  intro fuel
  induction fuel with
  | zero => intro p v hs; omega
  | succ f ih =>
    have hB := gtppList_spec_of prot f ih
    intro p v hs
    unfold GtppSpec
    rw [gtpp_succ]
    by_cases hp : p ∈ v
    · rw [if_pos hp]
      refine ⟨fun x hx => hx, hp, ?_⟩
      intro u hu hnu _ _ _ _; exact absurd hu hnu
    · rw [if_neg hp]
      cases hl : lookupTbl prot p with
      | none =>
        simp only [hl]
        refine ⟨fun x hx => List.mem_cons_of_mem _ hx, List.mem_cons_self _ _, ?_⟩
        intro u hu hnu ps hps _ _
        have hup : u = p := by
          rcases List.mem_cons.mp hu with h | h
          · exact h
          · exact absurd h hnu
        rw [hup, hl] at hps
        cases hps
      | some parents =>
        simp only [hl]
        have hpU : p ∈ protoUniverse prot := keys_subset_protoUniverse prot p parents hl
        have hdec := countNotIn_insert_lt (protoUniverse prot) v p hpU hp
        have hs2 : countNotIn (protoUniverse prot) (p :: v) + 1 ≤ f := by omega
        obtain ⟨hb1, hb2, hb3⟩ := hB parents (p :: v) hs2
        refine ⟨fun x hx => hb1 (List.mem_cons_of_mem _ hx), hb1 (List.mem_cons_self _ _), ?_⟩
        intro u hu hnu ps hps x hx
        by_cases hup : u = p
        · subst hup
          rw [hl] at hps
          injection hps with hps
          subst hps
          exact hb2 x hx
        · have hnu2 : u ∉ (p :: v) := by
            intro hh
            rcases List.mem_cons.mp hh with h | h
            · exact hup h
            · exact hnu h
          exact hb3 u hu hnu2 ps hps x hx

theorem reach_in_gtpp (prot : List (String × List String)) (P Q : String)
    (h : Relation.TransGen (ProtoEdge prot) P Q) :
    Q ∈ (gtpp prot (closureFuel prot) P []).1 := by
  have hs : countNotIn (protoUniverse prot) [] + 1 ≤ closureFuel prot := by
    have h2 := List.length_filter_le (fun x => decide (x ∉ ([] : List String)))
      (protoUniverse prot)
    unfold countNotIn closureFuel
    unfold protoUniverse at h2 ⊢
    omega
  obtain ⟨ha, hb, hd⟩ := gtpp_spec prot (closureFuel prot) P [] hs
  have hv : ∀ R, Relation.ReflTransGen (ProtoEdge prot) P R →
      R ∈ (gtpp prot (closureFuel prot) P []).2 := by
    intro R hR
    induction hR with
    | refl => exact hb
    | tail hst hedge ih =>
      cases hedge with
      | mk ps hlk hmem => exact (hd _ ih (List.not_mem_nil _) ps hlk _ hmem).2
  obtain ⟨b, hPb, hbQ⟩ := Relation.TransGen.tail'_iff.mp h
  cases hbQ with
  | mk ps hlk hmem =>
    exact (hd _ (hv _ hPb) (List.not_mem_nil _) ps hlk _ hmem).1

theorem addConformer_self (m : List (String × List String)) (p c : String) :
    ∃ s, lookupTbl (addConformer m p c) p = some s ∧ c ∈ s := by
  induction m with
  | nil =>
    refine ⟨[c], ?_, List.mem_cons_self _ _⟩
    simp [addConformer, lookupTbl]
  | cons e rest ih =>
    obtain ⟨k, s⟩ := e
    by_cases h : k = p
    · refine ⟨if memTbl s c = true then s else s ++ [c], ?_, ?_⟩
      · simp only [addConformer]
        rw [if_pos h]
        simp only [lookupTbl]
        rw [if_pos h]
      · by_cases hm : memTbl s c = true
        · rw [if_pos hm]; exact (memTbl_iff s c).mp hm
        · rw [if_neg hm]; exact List.mem_append_right _ (List.mem_cons_self _ _)
    · obtain ⟨s2, hs2, hc2⟩ := ih
      refine ⟨s2, ?_, hc2⟩
      simp only [addConformer]
      rw [if_neg h]
      simp only [lookupTbl]
      rw [if_neg h]
      exact hs2

theorem addConformer_mono (m : List (String × List String)) (p c k : String)
    (s : List String) (h : lookupTbl m k = some s) :
    ∃ s2, lookupTbl (addConformer m p c) k = some s2 ∧ s ⊆ s2 := by
  induction m with
  | nil => cases h
  | cons e rest ih =>
    obtain ⟨k0, s0⟩ := e
    simp only [lookupTbl] at h
    by_cases h0 : k0 = k
    · rw [if_pos h0] at h
      injection h with h
      by_cases hp : k0 = p
      · refine ⟨if memTbl s0 c = true then s0 else s0 ++ [c], ?_, ?_⟩
        · simp only [addConformer]
          rw [if_pos hp]
          simp only [lookupTbl]
          rw [if_pos h0]
        · rw [← h]
          by_cases hm : memTbl s0 c = true
          · rw [if_pos hm]; exact fun x hx => hx
          · rw [if_neg hm]; exact fun x hx => List.mem_append_left _ hx
      · refine ⟨s, ?_, fun x hx => hx⟩
        simp only [addConformer]
        rw [if_neg hp]
        simp only [lookupTbl]
        rw [if_pos h0, h]
    · rw [if_neg h0] at h
      by_cases hp : k0 = p
      · refine ⟨s, ?_, fun x hx => hx⟩
        simp only [addConformer]
        rw [if_pos hp]
        simp only [lookupTbl]
        rw [if_neg h0]
        exact h
      · obtain ⟨s2, hs2, hsub⟩ := ih h
        refine ⟨s2, ?_, hsub⟩
        simp only [addConformer]
        rw [if_neg hp]
        simp only [lookupTbl]
        rw [if_neg h0]
        exact hs2

theorem foldl_pres {β : Type}
    (f : List (String × List String) → β → List (String × List String))
    (hf : ∀ m b k s, lookupTbl m k = some s →
      ∃ s2, lookupTbl (f m b) k = some s2 ∧ s ⊆ s2) :
    ∀ (l : List β) (m : List (String × List String)) (k : String) (s : List String),
      lookupTbl m k = some s →
      ∃ s2, lookupTbl (l.foldl f m) k = some s2 ∧ s ⊆ s2 := by
  intro l
  induction l with
  | nil => intro m k s h; exact ⟨s, h, fun x hx => hx⟩
  | cons b l ih =>
    intro m k s h
    obtain ⟨s1, h1, hsub1⟩ := hf m b k s h
    obtain ⟨s2, h2, hsub2⟩ := ih (f m b) k s1 h1
    exact ⟨s2, h2, fun x hx => hsub2 (hsub1 hx)⟩

theorem conf_fold_estab (anc x : String) :
    ∀ (l : List String), x ∈ l → ∀ (m : List (String × List String)),
      ∃ s, lookupTbl (l.foldl (fun m c => addConformer m anc c) m) anc = some s ∧
        x ∈ s := by
  intro l
  induction l with
  | nil => intro hx; cases hx
  | cons c cs ih =>
    intro hx m
    rcases List.mem_cons.mp hx with h | h
    · subst h
      obtain ⟨s, hs, hc⟩ := addConformer_self m anc x
      obtain ⟨s2, hs2, hsub⟩ := foldl_pres (fun m c => addConformer m anc c)
        (fun m b k s h => addConformer_mono m anc b k s h) cs (addConformer m anc x)
        anc s hs
      exact ⟨s2, hs2, hsub hc⟩
    · exact ih h (addConformer m anc c)

theorem proto_fold_estab (x P : String) :
    ∀ (l : List String), P ∈ l → ∀ (m : List (String × List String)),
      ∃ s, lookupTbl (l.foldl (fun m pn => addConformer m pn x) m) P = some s ∧
        x ∈ s := by
  intro l
  induction l with
  | nil => intro hx; cases hx
  | cons pn rest ih =>
    intro hx m
    rcases List.mem_cons.mp hx with h | h
    · subst h
      obtain ⟨s, hs, hc⟩ := addConformer_self m P x
      obtain ⟨s2, hs2, hsub⟩ := foldl_pres (fun m pn => addConformer m pn x)
        (fun m b k s h => addConformer_mono m b x k s h) rest (addConformer m P x)
        P s hs
      exact ⟨s2, hs2, hsub hc⟩
    · exact ih h (addConformer m pn x)

theorem class_step_mono (m : List (String × List String)) (cp : String × List String)
    (k : String) (s : List String) (h : lookupTbl m k = some s) :
    ∃ s2, lookupTbl (cp.2.foldl (fun m pn => addConformer m pn cp.1) m) k =
      some s2 ∧ s ⊆ s2 :=
  foldl_pres (fun m pn => addConformer m pn cp.1)
    (fun m b k s h => addConformer_mono m b cp.1 k s h) cp.2 m k s h

theorem directConformers_mem (X P : String) (protos : List String) (hP : P ∈ protos) :
    ∀ (cl : List (String × List String)) (m : List (String × List String)),
      (X, protos) ∈ cl →
      ∃ s, lookupTbl
        (cl.foldl (fun m cp => cp.2.foldl (fun m pn => addConformer m pn cp.1) m) m) P =
          some s ∧ X ∈ s := by
  intro cl
  induction cl with
  | nil => intro m h; cases h
  | cons cp rest ih =>
    intro m h
    rw [List.foldl_cons]
    rcases List.mem_cons.mp h with h | h
    · subst h
      obtain ⟨s, hs, hx⟩ := proto_fold_estab X P protos hP m
      obtain ⟨s2, hs2, hsub⟩ := foldl_pres
        (fun m cp => cp.2.foldl (fun m pn => addConformer m pn cp.1) m)
        class_step_mono rest _ P s hs
      exact ⟨s2, hs2, hsub hx⟩
    · exact ih _ h

theorem conf_step_mono (conformers : List String) (m2 : List (String × List String))
    (b k : String) (s : List String) (h : lookupTbl m2 k = some s) :
    ∃ s2, lookupTbl (conformers.foldl (fun m3 c => addConformer m3 b c) m2) k =
      some s2 ∧ s ⊆ s2 :=
  foldl_pres (fun m3 c => addConformer m3 b c)
    (fun m3 b2 k2 s2 h2 => addConformer_mono m3 b b2 k2 s2 h2) conformers m2 k s h

theorem anc_fold_estab (X Q : String) (conformers : List String) (hX : X ∈ conformers) :
    ∀ (ancestors : List String), Q ∈ ancestors → ∀ (m : List (String × List String)),
      ∃ s, lookupTbl (ancestors.foldl
        (fun m2 anc => conformers.foldl (fun m3 c => addConformer m3 anc c) m2) m) Q =
          some s ∧ X ∈ s := by
  intro ancestors
  induction ancestors with
  | nil => intro h; cases h
  | cons a ancs ih =>
    intro h m
    rw [List.foldl_cons]
    rcases List.mem_cons.mp h with h | h
    · subst h
      obtain ⟨s, hs, hx⟩ := conf_fold_estab Q X conformers hX m
      obtain ⟨s2, hs2, hsub⟩ := foldl_pres
        (fun m2 anc => conformers.foldl (fun m3 c => addConformer m3 anc c) m2)
        (fun m2 b k s h => conf_step_mono conformers m2 b k s h) ancs _ Q s hs
      exact ⟨s2, hs2, hsub hx⟩
    · exact ih h _

theorem clos_step_mono (prot : List (String × List String))
    (m : List (String × List String)) (e : String × List String)
    (k : String) (s : List String) (h : lookupTbl m k = some s) :
    ∃ s2, lookupTbl ((gtpp prot (closureFuel prot) e.1 []).1.foldl
      (fun m2 anc => ((lookupTbl m e.1).getD []).foldl
        (fun m3 c => addConformer m3 anc c) m2) m) k = some s2 ∧ s ⊆ s2 :=
  foldl_pres (fun m2 anc => ((lookupTbl m e.1).getD []).foldl
      (fun m3 c => addConformer m3 anc c) m2)
    (fun m2 b k2 s2 h2 => conf_step_mono ((lookupTbl m e.1).getD []) m2 b k2 s2 h2)
    (gtpp prot (closureFuel prot) e.1 []).1 m k s h

theorem closure_estab (prot : List (String × List String)) (X P Q : String)
    (hQ : Q ∈ (gtpp prot (closureFuel prot) P []).1) :
    ∀ (l m : List (String × List String)),
      (∃ sp, (P, sp) ∈ l) →
      (∃ s, lookupTbl m P = some s ∧ X ∈ s) →
      ∃ s, lookupTbl
        (l.foldl (fun macc entry =>
          (gtpp prot (closureFuel prot) entry.1 []).1.foldl
            (fun m2 anc => ((lookupTbl macc entry.1).getD []).foldl
              (fun m3 c => addConformer m3 anc c) m2) macc) m) Q = some s ∧ X ∈ s := by
  intro l
  induction l with
  | nil =>
    intro m hl _
    obtain ⟨sp, hsp⟩ := hl
    cases hsp
  | cons e rest ih =>
    intro m hl hm
    rw [List.foldl_cons]
    obtain ⟨s, hs, hx⟩ := hm
    by_cases he : e.1 = P
    · have hest : ∃ s2, lookupTbl ((gtpp prot (closureFuel prot) e.1 []).1.foldl
          (fun m2 anc => ((lookupTbl m e.1).getD []).foldl
            (fun m3 c => addConformer m3 anc c) m2) m) Q = some s2 ∧ X ∈ s2 := by
        refine anc_fold_estab X Q ((lookupTbl m e.1).getD []) ?_
          (gtpp prot (closureFuel prot) e.1 []).1 ?_ m
        · rw [he, hs]
          exact hx
        · rw [he]
          exact hQ
      obtain ⟨s2, hs2, hx2⟩ := hest
      obtain ⟨s3, hs3, hsub⟩ := foldl_pres _
        (fun macc b k2 sk h2 => clos_step_mono prot macc b k2 sk h2) rest _ Q s2 hs2
      exact ⟨s3, hs3, hsub hx2⟩
    · obtain ⟨sp, hsp⟩ := hl
      have hl2 : ∃ sp2, (P, sp2) ∈ rest := by
        rcases List.mem_cons.mp hsp with h | h
        · exact absurd (congrArg Prod.fst h.symm) he
        · exact ⟨sp, h⟩
      obtain ⟨s2, hs2, hsub⟩ := clos_step_mono prot m e P s hs
      exact ih _ hl2 ⟨s2, hs2, hsub hx⟩

/-- C2: after the conformance closure is built, a class `X` that directly
conforms to protocol `P` is recorded as a conformer of every protocol `Q`
transitively reachable from `P` along protocol-extension edges — with no
acyclicity assumption on the extension graph, so cyclic extension chains
are covered. -/
theorem c2_conformance_closure (classes prot : List (String × List String))
    (X P Q : String) (protos : List String)
    (hX : (X, protos) ∈ classes) (hP : P ∈ protos)
    (hreach : Relation.TransGen (ProtoEdge prot) P Q) :
    ∃ s, lookupTbl (buildConformerMap classes prot) Q = some s ∧ X ∈ s := by
  obtain ⟨s0, hs0, hXs⟩ := directConformers_mem X P protos hP classes [] hX
  have hQ := reach_in_gtpp prot P Q hreach
  have hentry : (P, s0) ∈ directConformers classes := lookupTbl_mem _ _ _ hs0
  exact closure_estab prot X P Q hQ (directConformers classes) (directConformers classes)
    ⟨s0, hentry⟩ ⟨s0, hs0, hXs⟩

/-- C2 witness: with one class `X` conforming to `P` and the cyclic
extension chain `P` extends `Q` extends `P`, the closure records `X` as a
conformer of `Q` (reached transitively, never declared directly). -/
theorem c2_conformance_closure_witness :
    ∃ s, lookupTbl (buildConformerMap [("X", ["P"])] [("P", ["Q"]), ("Q", ["P"])])
      "Q" = some s ∧ "X" ∈ s :=
  c2_conformance_closure [("X", ["P"])] [("P", ["Q"]), ("Q", ["P"])] "X" "P" "Q" ["P"]
    (List.mem_cons_self _ _) (List.mem_cons_self _ _)
    (Relation.TransGen.single (ProtoEdge.mk "P" "Q" ["Q"] rfl (List.mem_cons_self _ _)))

/-! ## C6: class/category member-merge commutativity -/

theorem dedupAppend_cons (s : List String) (x : String) (xs : List String) :
    dedupAppend s (x :: xs) =
      if memTbl s x then dedupAppend s xs else dedupAppend (s ++ [x]) xs := rfl

theorem dedupAppend_prefix : ∀ (l s : List String), ∃ t, dedupAppend s l = s ++ t := by
  intro l
  induction l with
  | nil => intro s; exact ⟨[], (List.append_nil s).symm⟩
  | cons x xs ih =>
    intro s
    rw [dedupAppend_cons]
    by_cases h : memTbl s x = true
    · rw [if_pos h]; exact ih s
    · rw [if_neg h]
      obtain ⟨t, ht⟩ := ih (s ++ [x])
      exact ⟨[x] ++ t, by rw [ht, List.append_assoc]⟩

theorem dedupAppend_mem : ∀ (l s : List String) (x : String),
    x ∈ dedupAppend s l ↔ (x ∈ s ∨ x ∈ l) := by
  intro l
  induction l with
  | nil =>
    intro s x
    constructor
    · exact fun h => Or.inl h
    · intro h
      rcases h with h | h
      · exact h
      · cases h
  | cons y ys ih =>
    intro s x
    rw [dedupAppend_cons]
    by_cases h : memTbl s y = true
    · rw [if_pos h, ih]
      constructor
      · intro hh
        rcases hh with hh | hh
        · exact Or.inl hh
        · exact Or.inr (List.mem_cons_of_mem _ hh)
      · intro hh
        rcases hh with hh | hh
        · exact Or.inl hh
        · rcases List.mem_cons.mp hh with hh | hh
          · subst hh; exact Or.inl ((memTbl_iff _ _).mp h)
          · exact Or.inr hh
    · rw [if_neg h, ih]
      constructor
      · intro hh
        rcases hh with hh | hh
        · rcases List.mem_append.mp hh with hh | hh
          · exact Or.inl hh
          · exact Or.inr (by rw [List.mem_singleton.mp hh]; exact List.mem_cons_self _ _)
        · exact Or.inr (List.mem_cons_of_mem _ hh)
      · intro hh
        rcases hh with hh | hh
        · exact Or.inl (List.mem_append_left _ hh)
        · rcases List.mem_cons.mp hh with hh | hh
          · exact Or.inl (List.mem_append_right _
              (by rw [hh]; exact List.mem_cons_self _ _))
          · exact Or.inr hh

theorem dedupAppend_nodup : ∀ (l s : List String), s.Nodup → (dedupAppend s l).Nodup := by
  intro l
  induction l with
  | nil => intro s h; exact h
  | cons x xs ih =>
    intro s h
    rw [dedupAppend_cons]
    by_cases hm : memTbl s x = true
    · rw [if_pos hm]; exact ih s h
    · rw [if_neg hm]
      refine ih (s ++ [x]) ?_
      rw [List.nodup_append]
      refine ⟨h, List.nodup_singleton x, ?_⟩
      intro a ha hb
      rw [List.mem_singleton] at hb
      subst hb
      exact hm ((memTbl_iff s a).mpr ha)

theorem instSelsL_cons (c : ClangNode) (rest : List ClangNode) :
    instSelsL (c :: rest) =
      (match extractMethod c with
       | some m => if m.isClassMethod then instSelsL rest else m.selector :: instSelsL rest
       | none => instSelsL rest) := rfl

theorem clsSelsL_cons (c : ClangNode) (rest : List ClangNode) :
    clsSelsL (c :: rest) =
      (match extractMethod c with
       | some m => if m.isClassMethod then m.selector :: clsSelsL rest else clsSelsL rest
       | none => clsSelsL rest) := rfl

theorem propNamesL_cons (c : ClangNode) (rest : List ClangNode) :
    propNamesL (c :: rest) =
      (match extractProperty c with
       | some p => p.name :: propNamesL rest
       | none => propNamesL rest) := rfl

theorem extractMethod_none (n : ClangNode) (h : ¬(n.kind = "ObjCMethodDecl")) :
    extractMethod n = none := by
  unfold extractMethod
  rw [if_pos h]

theorem extractProperty_none (n : ClangNode) (h : ¬(n.kind = "ObjCPropertyDecl")) :
    extractProperty n = none := by
  unfold extractProperty
  rw [if_pos h]

theorem setClass_lookup (classes : List (String × ObjCClassR)) (name : String)
    (c : ObjCClassR) : lookupTbl (setClass classes name c) name = some c := by
  induction classes with
  | nil => simp [setClass, lookupTbl]
  | cons e rest ih =>
    obtain ⟨k, v⟩ := e
    by_cases h : k = name
    · simp only [setClass]
      rw [if_pos h]
      simp only [lookupTbl]
      rw [if_pos h]
    · simp only [setClass]
      rw [if_neg h]
      simp only [lookupTbl]
      rw [if_neg h]
      exact ih

theorem protoFold_members : ∀ (l : List String) (c : ObjCClassR),
    ((l.foldl (fun c pn => if pn ∈ c.protocols then c
        else { c with protocols := c.protocols ++ [pn] }) c)).instanceMethods =
      c.instanceMethods ∧
    ((l.foldl (fun c pn => if pn ∈ c.protocols then c
        else { c with protocols := c.protocols ++ [pn] }) c)).classMethods =
      c.classMethods ∧
    ((l.foldl (fun c pn => if pn ∈ c.protocols then c
        else { c with protocols := c.protocols ++ [pn] }) c)).properties =
      c.properties := by
  intro l
  induction l with
  | nil => intro c; exact ⟨rfl, rfl, rfl⟩
  | cons pn rest ih =>
    intro c
    rw [List.foldl_cons]
    by_cases h : pn ∈ c.protocols
    · rw [if_pos h]; exact ih c
    · rw [if_neg h]; exact ih _

theorem supStep_members (c : ObjCClassR) (nd : ClangNode) :
    ((if nd.kind = "ObjCInterfaceDecl" then
        match nd.superName with
        | some s => { c with superclass := some s }
        | none => c
      else c) : ObjCClassR).instanceMethods = c.instanceMethods ∧
    ((if nd.kind = "ObjCInterfaceDecl" then
        match nd.superName with
        | some s => { c with superclass := some s }
        | none => c
      else c) : ObjCClassR).classMethods = c.classMethods ∧
    ((if nd.kind = "ObjCInterfaceDecl" then
        match nd.superName with
        | some s => { c with superclass := some s }
        | none => c
      else c) : ObjCClassR).properties = c.properties := by
  by_cases h : nd.kind = "ObjCInterfaceDecl"
  · rw [if_pos h]
    cases h2 : nd.superName with
    | some s => simp [h2]
    | none => simp [h2]
  · rw [if_neg h]
    exact ⟨rfl, rfl, rfl⟩

theorem mergeMembers_inst :
    ∀ (children : List ClangNode) (cls : ObjCClassR) (iSeen cSeen pSeen : List String),
      cls.instanceMethods.map (fun m => m.selector) = iSeen →
      (∃ t, (mergeMembers cls iSeen cSeen pSeen children).instanceMethods =
        cls.instanceMethods ++ t) ∧
      (mergeMembers cls iSeen cSeen pSeen children).instanceMethods.map
        (fun m => m.selector) = dedupAppend iSeen (instSelsL children) := by
  intro children
  induction children with
  | nil =>
    intro cls iSeen cSeen pSeen hI
    exact ⟨⟨[], (List.append_nil _).symm⟩, hI⟩
  | cons child rest ih =>
    intro cls iSeen cSeen pSeen hI
    simp only [mergeMembers]
    rw [instSelsL_cons]
    by_cases hk : child.kind = "ObjCMethodDecl"
    · rw [if_pos hk]
      cases hm : extractMethod child with
      | none =>
        simp only [hm]
        exact ih cls iSeen cSeen pSeen hI
      | some m =>
        simp only [hm]
        by_cases hcm : m.isClassMethod = true
        · simp only [if_pos hcm]
          by_cases hms : memTbl cSeen m.selector = true
          · rw [if_pos hms]
            exact ih cls iSeen cSeen pSeen hI
          · rw [if_neg hms]
            exact ih _ iSeen _ pSeen hI
        · simp only [if_neg hcm]
          by_cases hms : memTbl iSeen m.selector = true
          · rw [if_pos hms, dedupAppend_cons, if_pos hms]
            exact ih cls iSeen cSeen pSeen hI
          · rw [if_neg hms, dedupAppend_cons, if_neg hms]
            have hI2 : ({ cls with instanceMethods := cls.instanceMethods ++ [m] }
                : ObjCClassR).instanceMethods.map (fun m => m.selector) =
                iSeen ++ [m.selector] := by
              show (cls.instanceMethods ++ [m]).map (fun m => m.selector) =
                iSeen ++ [m.selector]
              rw [List.map_append, hI]
              rfl
            obtain ⟨⟨t, ht⟩, hnames⟩ := ih _ (iSeen ++ [m.selector]) cSeen pSeen hI2
            refine ⟨⟨[m] ++ t, ?_⟩, hnames⟩
            rw [ht]
            show (cls.instanceMethods ++ [m]) ++ t = cls.instanceMethods ++ ([m] ++ t)
            rw [List.append_assoc]
    · rw [if_neg hk]
      rw [extractMethod_none child hk]
      by_cases hk2 : child.kind = "ObjCPropertyDecl"
      · rw [if_pos hk2]
        cases hp : extractProperty child with
        | none =>
          simp only [hp]
          exact ih cls iSeen cSeen pSeen hI
        | some p =>
          simp only [hp]
          by_cases hms : memTbl pSeen p.name = true
          · rw [if_pos hms]
            exact ih cls iSeen cSeen pSeen hI
          · rw [if_neg hms]
            exact ih _ iSeen cSeen _ hI
      · rw [if_neg hk2]
        exact ih cls iSeen cSeen pSeen hI

theorem mergeMembers_cls :
    ∀ (children : List ClangNode) (cls : ObjCClassR) (iSeen cSeen pSeen : List String),
      cls.classMethods.map (fun m => m.selector) = cSeen →
      (∃ t, (mergeMembers cls iSeen cSeen pSeen children).classMethods =
        cls.classMethods ++ t) ∧
      (mergeMembers cls iSeen cSeen pSeen children).classMethods.map
        (fun m => m.selector) = dedupAppend cSeen (clsSelsL children) := by
  intro children
  induction children with
  | nil =>
    intro cls iSeen cSeen pSeen hC
    exact ⟨⟨[], (List.append_nil _).symm⟩, hC⟩
  | cons child rest ih =>
    intro cls iSeen cSeen pSeen hC
    simp only [mergeMembers]
    rw [clsSelsL_cons]
    by_cases hk : child.kind = "ObjCMethodDecl"
    · rw [if_pos hk]
      cases hm : extractMethod child with
      | none =>
        simp only [hm]
        exact ih cls iSeen cSeen pSeen hC
      | some m =>
        simp only [hm]
        by_cases hcm : m.isClassMethod = true
        · simp only [if_pos hcm]
          by_cases hms : memTbl cSeen m.selector = true
          · rw [if_pos hms, dedupAppend_cons, if_pos hms]
            exact ih cls iSeen cSeen pSeen hC
          · rw [if_neg hms, dedupAppend_cons, if_neg hms]
            have hC2 : ({ cls with classMethods := cls.classMethods ++ [m] }
                : ObjCClassR).classMethods.map (fun m => m.selector) =
                cSeen ++ [m.selector] := by
              show (cls.classMethods ++ [m]).map (fun m => m.selector) =
                cSeen ++ [m.selector]
              rw [List.map_append, hC]
              rfl
            obtain ⟨⟨t, ht⟩, hnames⟩ := ih _ iSeen (cSeen ++ [m.selector]) pSeen hC2
            refine ⟨⟨[m] ++ t, ?_⟩, hnames⟩
            rw [ht]
            show (cls.classMethods ++ [m]) ++ t = cls.classMethods ++ ([m] ++ t)
            rw [List.append_assoc]
        · simp only [if_neg hcm]
          by_cases hms : memTbl iSeen m.selector = true
          · rw [if_pos hms]
            exact ih cls iSeen cSeen pSeen hC
          · rw [if_neg hms]
            exact ih _ _ cSeen pSeen hC
    · rw [if_neg hk]
      rw [extractMethod_none child hk]
      by_cases hk2 : child.kind = "ObjCPropertyDecl"
      · rw [if_pos hk2]
        cases hp : extractProperty child with
        | none =>
          simp only [hp]
          exact ih cls iSeen cSeen pSeen hC
        | some p =>
          simp only [hp]
          by_cases hms : memTbl pSeen p.name = true
          · rw [if_pos hms]
            exact ih cls iSeen cSeen pSeen hC
          · rw [if_neg hms]
            exact ih _ iSeen cSeen _ hC
      · rw [if_neg hk2]
        exact ih cls iSeen cSeen pSeen hC

theorem mergeMembers_prop :
    ∀ (children : List ClangNode) (cls : ObjCClassR) (iSeen cSeen pSeen : List String),
      cls.properties.map (fun p => p.name) = pSeen →
      (∃ t, (mergeMembers cls iSeen cSeen pSeen children).properties =
        cls.properties ++ t) ∧
      (mergeMembers cls iSeen cSeen pSeen children).properties.map
        (fun p => p.name) = dedupAppend pSeen (propNamesL children) := by
  intro children
  induction children with
  | nil =>
    intro cls iSeen cSeen pSeen hP
    exact ⟨⟨[], (List.append_nil _).symm⟩, hP⟩
  | cons child rest ih =>
    intro cls iSeen cSeen pSeen hP
    simp only [mergeMembers]
    rw [propNamesL_cons]
    by_cases hk : child.kind = "ObjCMethodDecl"
    · rw [if_pos hk]
      have hpn : extractProperty child = none :=
        extractProperty_none child (fun hh => by
          rw [hk] at hh
          exact absurd hh (by decide))
      rw [hpn]
      cases hm : extractMethod child with
      | none =>
        simp only [hm]
        exact ih cls iSeen cSeen pSeen hP
      | some m =>
        simp only [hm]
        by_cases hcm : m.isClassMethod = true
        · simp only [if_pos hcm]
          by_cases hms : memTbl cSeen m.selector = true
          · rw [if_pos hms]
            exact ih cls iSeen cSeen pSeen hP
          · rw [if_neg hms]
            exact ih _ iSeen _ pSeen hP
        · simp only [if_neg hcm]
          by_cases hms : memTbl iSeen m.selector = true
          · rw [if_pos hms]
            exact ih cls iSeen cSeen pSeen hP
          · rw [if_neg hms]
            exact ih _ _ cSeen pSeen hP
    · rw [if_neg hk]
      by_cases hk2 : child.kind = "ObjCPropertyDecl"
      · rw [if_pos hk2]
        cases hp : extractProperty child with
        | none =>
          simp only [hp]
          exact ih cls iSeen cSeen pSeen hP
        | some p =>
          simp only [hp]
          by_cases hms : memTbl pSeen p.name = true
          · rw [if_pos hms, dedupAppend_cons, if_pos hms]
            exact ih cls iSeen cSeen pSeen hP
          · rw [if_neg hms, dedupAppend_cons, if_neg hms]
            have hP2 : ({ cls with properties := cls.properties ++ [p] }
                : ObjCClassR).properties.map (fun p => p.name) =
                pSeen ++ [p.name] := by
              show (cls.properties ++ [p]).map (fun p => p.name) = pSeen ++ [p.name]
              rw [List.map_append, hP]
              rfl
            obtain ⟨⟨t, ht⟩, hnames⟩ := ih _ iSeen cSeen (pSeen ++ [p.name]) hP2
            refine ⟨⟨[p] ++ t, ?_⟩, hnames⟩
            rw [ht]
            show (cls.properties ++ [p]) ++ t = cls.properties ++ ([p] ++ t)
            rw [List.append_assoc]
      · rw [if_neg hk2]
        rw [extractProperty_none child hk2]
        exact ih cls iSeen cSeen pSeen hP

theorem nodeInstSelectors_eq (n : ClangNode) :
    nodeInstSelectors n = instSelsL n.inner := rfl

theorem nodeClsSelectors_eq (n : ClangNode) :
    nodeClsSelectors n = clsSelsL n.inner := rfl

theorem nodePropNames_eq (n : ClangNode) :
    nodePropNames n = propNamesL n.inner := rfl

theorem pIOC_core (classes : List (String × ObjCClassR)) (N : String)
    (cbase : ObjCClassR) (children : List ClangNode) :
    ∃ c, lookupTbl (setClass classes N (mergeMembers cbase
        (cbase.instanceMethods.map (fun m => m.selector))
        (cbase.classMethods.map (fun m => m.selector))
        (cbase.properties.map (fun p => p.name)) children)) N = some c ∧
      (∃ tI, c.instanceMethods = cbase.instanceMethods ++ tI) ∧
      (∃ tC, c.classMethods = cbase.classMethods ++ tC) ∧
      (∃ tP, c.properties = cbase.properties ++ tP) ∧
      c.instanceMethods.map (fun m => m.selector) =
        dedupAppend (cbase.instanceMethods.map (fun m => m.selector))
          (instSelsL children) ∧
      c.classMethods.map (fun m => m.selector) =
        dedupAppend (cbase.classMethods.map (fun m => m.selector))
          (clsSelsL children) ∧
      c.properties.map (fun p => p.name) =
        dedupAppend (cbase.properties.map (fun p => p.name))
          (propNamesL children) := by
  obtain ⟨hEI, hNI⟩ := mergeMembers_inst children cbase
    (cbase.instanceMethods.map (fun m => m.selector))
    (cbase.classMethods.map (fun m => m.selector))
    (cbase.properties.map (fun p => p.name)) rfl
  obtain ⟨hEC, hNC⟩ := mergeMembers_cls children cbase
    (cbase.instanceMethods.map (fun m => m.selector))
    (cbase.classMethods.map (fun m => m.selector))
    (cbase.properties.map (fun p => p.name)) rfl
  obtain ⟨hEP, hNP⟩ := mergeMembers_prop children cbase
    (cbase.instanceMethods.map (fun m => m.selector))
    (cbase.classMethods.map (fun m => m.selector))
    (cbase.properties.map (fun p => p.name)) rfl
  exact ⟨_, setClass_lookup _ _ _, hEI, hEC, hEP, hNI, hNC, hNP⟩

theorem pIOC_record (targets : List String) (classes : List (String × ObjCClassR))
    (nd : ClangNode) (N : String) (hT : memTbl targets N = true) (c0 : ObjCClassR)
    (hc0 : getOrCreateClass classes N = c0) :
    ∃ c, lookupTbl (processInterfaceOrCategory targets classes nd N) N = some c ∧
      (∃ tI, c.instanceMethods = c0.instanceMethods ++ tI) ∧
      (∃ tC, c.classMethods = c0.classMethods ++ tC) ∧
      (∃ tP, c.properties = c0.properties ++ tP) ∧
      c.instanceMethods.map (fun m => m.selector) =
        dedupAppend (c0.instanceMethods.map (fun m => m.selector))
          (instSelsL nd.inner) ∧
      c.classMethods.map (fun m => m.selector) =
        dedupAppend (c0.classMethods.map (fun m => m.selector))
          (clsSelsL nd.inner) ∧
      c.properties.map (fun p => p.name) =
        dedupAppend (c0.properties.map (fun p => p.name))
          (propNamesL nd.inner) := by
  obtain ⟨hs1, hs2, hs3⟩ := supStep_members c0 nd
  obtain ⟨hp1, hp2, hp3⟩ := protoFold_members nd.protocolRefs
    (if nd.kind = "ObjCInterfaceDecl" then
      (match nd.superName with
       | some s => { c0 with superclass := some s }
       | none => c0)
    else c0)
  obtain ⟨c, hc, hI, hC, hP, hnI, hnC, hnP⟩ := pIOC_core classes N
    (nd.protocolRefs.foldl
      (fun c pn => if pn ∈ c.protocols then c
        else { c with protocols := c.protocols ++ [pn] })
      (if nd.kind = "ObjCInterfaceDecl" then
        (match nd.superName with
         | some s => { c0 with superclass := some s }
         | none => c0)
      else c0)) nd.inner
  have hmI := hp1.trans hs1
  have hmC := hp2.trans hs2
  have hmP := hp3.trans hs3
  unfold processInterfaceOrCategory
  rw [if_neg (fun hh => hh hT)]
  rw [hc0]
  dsimp only
  refine ⟨c, hc, ?_, ?_, ?_, ?_, ?_, ?_⟩
  · obtain ⟨t, ht⟩ := hI
    exact ⟨t, by rw [ht, hmI]⟩
  · obtain ⟨t, ht⟩ := hC
    exact ⟨t, by rw [ht, hmC]⟩
  · obtain ⟨t, ht⟩ := hP
    exact ⟨t, by rw [ht, hmP]⟩
  · rw [hnI, hmI]
  · rw [hnC, hmC]
  · rw [hnP, hmP]

/-- C6: extracting a class's primary interface declaration and a
category/extension declaration targeting it in either document order yields
the same final member-name sets — the union of both declarations' extracted
instance-method selectors, class-method selectors and property names — with
no name occurring twice in any of the three lists, and with the members
already present after the first declaration never replaced by the second
(the second declaration only appends). -/
theorem c6_merge_commutative (targets : List String) (N : String)
    (nd1 nd2 : ClangNode) (hT : memTbl targets N = true) :
    ∃ c1 c2,
      lookupTbl (processInterfaceOrCategory targets
        (processInterfaceOrCategory targets [] nd1 N) nd2 N) N = some c1 ∧
      lookupTbl (processInterfaceOrCategory targets
        (processInterfaceOrCategory targets [] nd2 N) nd1 N) N = some c2 ∧
      (∀ x, x ∈ c1.instanceMethods.map (fun m => m.selector) ↔
        x ∈ c2.instanceMethods.map (fun m => m.selector)) ∧
      (∀ x, x ∈ c1.classMethods.map (fun m => m.selector) ↔
        x ∈ c2.classMethods.map (fun m => m.selector)) ∧
      (∀ x, x ∈ c1.properties.map (fun p => p.name) ↔
        x ∈ c2.properties.map (fun p => p.name)) ∧
      (∀ x, x ∈ c1.instanceMethods.map (fun m => m.selector) ↔
        (x ∈ nodeInstSelectors nd1 ∨ x ∈ nodeInstSelectors nd2)) ∧
      (∀ x, x ∈ c1.classMethods.map (fun m => m.selector) ↔
        (x ∈ nodeClsSelectors nd1 ∨ x ∈ nodeClsSelectors nd2)) ∧
      (∀ x, x ∈ c1.properties.map (fun p => p.name) ↔
        (x ∈ nodePropNames nd1 ∨ x ∈ nodePropNames nd2)) ∧
      (c1.instanceMethods.map (fun m => m.selector)).Nodup ∧
      (c1.classMethods.map (fun m => m.selector)).Nodup ∧
      (c1.properties.map (fun p => p.name)).Nodup ∧
      (c2.instanceMethods.map (fun m => m.selector)).Nodup ∧
      (c2.classMethods.map (fun m => m.selector)).Nodup ∧
      (c2.properties.map (fun p => p.name)).Nodup ∧
      ∃ r1, lookupTbl (processInterfaceOrCategory targets [] nd1 N) N = some r1 ∧
        (∃ tI, c1.instanceMethods = r1.instanceMethods ++ tI) ∧
        (∃ tC, c1.classMethods = r1.classMethods ++ tC) ∧
        (∃ tP, c1.properties = r1.properties ++ tP) := by
  obtain ⟨r1, hr1, hrEI, hrEC, hrEP, hrI0, hrC0, hrP0⟩ :=
    pIOC_record targets [] nd1 N hT (emptyClassR N) rfl
  obtain ⟨r2, hr2, _, _, _, hrI20, hrC20, hrP20⟩ :=
    pIOC_record targets [] nd2 N hT (emptyClassR N) rfl
  obtain ⟨c1, hc1, hEI1, hEC1, hEP1, hI1, hC1, hP1⟩ :=
    pIOC_record targets (processInterfaceOrCategory targets [] nd1 N) nd2 N hT r1
      (by unfold getOrCreateClass; rw [hr1])
  obtain ⟨c2, hc2, _, _, _, hI2, hC2, hP2⟩ :=
    pIOC_record targets (processInterfaceOrCategory targets [] nd2 N) nd1 N hT r2
      (by unfold getOrCreateClass; rw [hr2])
  have hrI : r1.instanceMethods.map (fun m => m.selector) =
      dedupAppend [] (instSelsL nd1.inner) := hrI0
  have hrC : r1.classMethods.map (fun m => m.selector) =
      dedupAppend [] (clsSelsL nd1.inner) := hrC0
  have hrP : r1.properties.map (fun p => p.name) =
      dedupAppend [] (propNamesL nd1.inner) := hrP0
  have hrI2 : r2.instanceMethods.map (fun m => m.selector) =
      dedupAppend [] (instSelsL nd2.inner) := hrI20
  have hrC2 : r2.classMethods.map (fun m => m.selector) =
      dedupAppend [] (clsSelsL nd2.inner) := hrC20
  have hrP2 : r2.properties.map (fun p => p.name) =
      dedupAppend [] (propNamesL nd2.inner) := hrP20
  have hfinI1 : c1.instanceMethods.map (fun m => m.selector) =
      dedupAppend (dedupAppend [] (instSelsL nd1.inner)) (instSelsL nd2.inner) := by
    rw [hI1, hrI]
  have hfinC1 : c1.classMethods.map (fun m => m.selector) =
      dedupAppend (dedupAppend [] (clsSelsL nd1.inner)) (clsSelsL nd2.inner) := by
    rw [hC1, hrC]
  have hfinP1 : c1.properties.map (fun p => p.name) =
      dedupAppend (dedupAppend [] (propNamesL nd1.inner)) (propNamesL nd2.inner) := by
    rw [hP1, hrP]
  have hfinI2 : c2.instanceMethods.map (fun m => m.selector) =
      dedupAppend (dedupAppend [] (instSelsL nd2.inner)) (instSelsL nd1.inner) := by
    rw [hI2, hrI2]
  have hfinC2 : c2.classMethods.map (fun m => m.selector) =
      dedupAppend (dedupAppend [] (clsSelsL nd2.inner)) (clsSelsL nd1.inner) := by
    rw [hC2, hrC2]
  have hfinP2 : c2.properties.map (fun p => p.name) =
      dedupAppend (dedupAppend [] (propNamesL nd2.inner)) (propNamesL nd1.inner) := by
    rw [hP2, hrP2]
  refine ⟨c1, c2, hc1, hc2, ?_, ?_, ?_, ?_, ?_, ?_, ?_, ?_, ?_, ?_, ?_, ?_,
    ⟨r1, hr1, hEI1, hEC1, hEP1⟩⟩
  · intro x
    rw [hfinI1, hfinI2, dedupAppend_mem, dedupAppend_mem, dedupAppend_mem,
      dedupAppend_mem]
    tauto
  · intro x
    rw [hfinC1, hfinC2, dedupAppend_mem, dedupAppend_mem, dedupAppend_mem,
      dedupAppend_mem]
    tauto
  · intro x
    rw [hfinP1, hfinP2, dedupAppend_mem, dedupAppend_mem, dedupAppend_mem,
      dedupAppend_mem]
    tauto
  · intro x
    rw [hfinI1, dedupAppend_mem, dedupAppend_mem, nodeInstSelectors_eq nd1,
      nodeInstSelectors_eq nd2]
    simp only [List.not_mem_nil, false_or]
  · intro x
    rw [hfinC1, dedupAppend_mem, dedupAppend_mem, nodeClsSelectors_eq nd1,
      nodeClsSelectors_eq nd2]
    simp only [List.not_mem_nil, false_or]
  · intro x
    rw [hfinP1, dedupAppend_mem, dedupAppend_mem, nodePropNames_eq nd1,
      nodePropNames_eq nd2]
    simp only [List.not_mem_nil, false_or]
  · rw [hfinI1]
    exact dedupAppend_nodup _ _ (dedupAppend_nodup _ _ List.nodup_nil)
  · rw [hfinC1]
    exact dedupAppend_nodup _ _ (dedupAppend_nodup _ _ List.nodup_nil)
  · rw [hfinP1]
    exact dedupAppend_nodup _ _ (dedupAppend_nodup _ _ List.nodup_nil)
  · rw [hfinI2]
    exact dedupAppend_nodup _ _ (dedupAppend_nodup _ _ List.nodup_nil)
  · rw [hfinC2]
    exact dedupAppend_nodup _ _ (dedupAppend_nodup _ _ List.nodup_nil)
  · rw [hfinP2]
    exact dedupAppend_nodup _ _ (dedupAppend_nodup _ _ List.nodup_nil)

/-- C6 witness: the merge-commutativity theorem instantiated with a concrete
interface declaration for class `C` and a concrete category declaration, the
target-class filter passing for `C`. -/
theorem c6_merge_commutative_witness :
    memTbl ["C"] "C" = true ∧
    (∃ c1 c2,
      lookupTbl (processInterfaceOrCategory ["C"]
        (processInterfaceOrCategory ["C"] [] c6nd1 "C") c6nd2 "C") "C" = some c1 ∧
      lookupTbl (processInterfaceOrCategory ["C"]
        (processInterfaceOrCategory ["C"] [] c6nd2 "C") c6nd1 "C") "C" = some c2 ∧
      (∀ x, x ∈ c1.instanceMethods.map (fun m => m.selector) ↔
        x ∈ c2.instanceMethods.map (fun m => m.selector)) ∧
      (∀ x, x ∈ c1.classMethods.map (fun m => m.selector) ↔
        x ∈ c2.classMethods.map (fun m => m.selector)) ∧
      (∀ x, x ∈ c1.properties.map (fun p => p.name) ↔
        x ∈ c2.properties.map (fun p => p.name)) ∧
      (∀ x, x ∈ c1.instanceMethods.map (fun m => m.selector) ↔
        (x ∈ nodeInstSelectors c6nd1 ∨ x ∈ nodeInstSelectors c6nd2)) ∧
      (∀ x, x ∈ c1.classMethods.map (fun m => m.selector) ↔
        (x ∈ nodeClsSelectors c6nd1 ∨ x ∈ nodeClsSelectors c6nd2)) ∧
      (∀ x, x ∈ c1.properties.map (fun p => p.name) ↔
        (x ∈ nodePropNames c6nd1 ∨ x ∈ nodePropNames c6nd2)) ∧
      (c1.instanceMethods.map (fun m => m.selector)).Nodup ∧
      (c1.classMethods.map (fun m => m.selector)).Nodup ∧
      (c1.properties.map (fun p => p.name)).Nodup ∧
      (c2.instanceMethods.map (fun m => m.selector)).Nodup ∧
      (c2.classMethods.map (fun m => m.selector)).Nodup ∧
      (c2.properties.map (fun p => p.name)).Nodup ∧
      ∃ r1, lookupTbl (processInterfaceOrCategory ["C"] [] c6nd1 "C") "C" = some r1 ∧
        (∃ tI, c1.instanceMethods = r1.instanceMethods ++ tI) ∧
        (∃ tC, c1.classMethods = r1.classMethods ++ tC) ∧
        (∃ tP, c1.properties = r1.properties ++ tP)) :=
  ⟨rfl, c6_merge_commutative ["C"] "C" c6nd1 c6nd2 rfl⟩

end ObjcGen
